import Mathlib

/-!
Verification development for a browser-automation agent consisting of a
plan decoder (Python `json.loads` over translator output), a Playwright
plan executor (`execute_playwright_plan`) and an orchestrator
(`brain_orchestrator`).  Python values decoded from JSON are modelled by
the `Json` type; Python-level exceptions are modelled explicitly: every
fallible primitive consults an environment that decides, for each
browser call in sequence, whether the call returns or raises.
-/

/-- Model of the values produced by Python `json.loads`: numbers keep their
source numeral text (so no floating point semantics is assumed), objects
keep their members in parse order. -/
inductive Json where
  | null : Json
  | bool (b : Bool) : Json
  | num (s : String) : Json
  | str (s : String) : Json
  | arr (items : List Json) : Json
  | obj (mems : List (String × Json)) : Json

/-- Character lists, the working representation of Python strings here. -/
abbrev Chars := List Char

/-- JSON insignificant whitespace (the four characters `json` skips). -/
def isJsonWs (c : Char) : Bool :=
  c == '\r' || c == '\n' || c == '\t' || c == ' '

/-- Drop leading JSON whitespace. -/
def skipWs : Chars → Chars
  | [] => []
  | c :: cs => if isJsonWs c then skipWs cs else c :: cs

/-- Characters that may continue a JSON numeral. -/
def isNumCh (c : Char) : Bool :=
  c.isDigit || c == '-' || c == '+' || c == '.' || c == 'e' || c == 'E'

/-- Characters that may start a JSON numeral. -/
def isNumStart (c : Char) : Bool :=
  c.isDigit || c == '-'

/-- Lookup table of the simple JSON string escapes: the character written
after the backslash paired with the character it denotes. -/
def escTable : List (Char × Char) :=
  [('n', '\n'), ('t', '\t'), ('r', '\r'), ('b', '\x08'), ('f', '\x0c'),
   ('"', '"'), ('\\', '\\'), ('/', '/')]

/-- Simple JSON string escapes (the model omits the `\u` form). -/
def escChar (c : Char) : Option Char :=
  (escTable.find? (fun p => p.1 == c)).map Prod.snd

/-- Parse the body of a JSON string after its opening quote, returning the
decoded characters and the input remaining after the closing quote. -/
def parseStrChars : Chars → Option (Chars × Chars)
  | [] => none
  | c :: rest =>
    if c = '"' then some ([], rest)
    else if c = '\\' then
      match rest with
      | [] => none
      | e :: rest' =>
        match escChar e with
        | some ec => (parseStrChars rest').map (fun p => (ec :: p.1, p.2))
        | none => none
    else (parseStrChars rest).map (fun p => (c :: p.1, p.2))

/-- Parse a JSON numeral: the maximal run of numeral characters. -/
def parseNum (cs : Chars) : Option (Json × Chars) :=
  let ds := cs.takeWhile isNumCh
  if ds.isEmpty then none else some (Json.num ⟨ds⟩, cs.drop ds.length)

/-- One level of the value parser, taking the parsers of the next lower
fuel level for array items and object members. -/
def parseValStep (pit : Chars → Option (List Json × Chars))
    (pms : Chars → Option (List (String × Json) × Chars))
    (cs : Chars) : Option (Json × Chars) :=
  match skipWs cs with
  | [] => none
  | c :: r =>
    if c = 'n' then
      (match r with
       | 'u' :: 'l' :: 'l' :: r2 => some (Json.null, r2)
       | _ => none)
    else if c = 't' then
      (match r with
       | 'r' :: 'u' :: 'e' :: r2 => some (Json.bool true, r2)
       | _ => none)
    else if c = 'f' then
      (match r with
       | 'a' :: 'l' :: 's' :: 'e' :: r2 => some (Json.bool false, r2)
       | _ => none)
    else if c = '"' then
      (parseStrChars r).map (fun p => (Json.str ⟨p.1⟩, p.2))
    else if c = '[' then
      (match skipWs r with
       | [] => none
       | c2 :: r2 =>
         if c2 = ']' then some (Json.arr [], r2)
         else (pit (c2 :: r2)).map (fun p => (Json.arr p.1, p.2)))
    else if c = '\x7b' then
      (match skipWs r with
       | [] => none
       | c2 :: r2 =>
         if c2 = '\x7d' then some (Json.obj [], r2)
         else (pms (c2 :: r2)).map (fun p => (Json.obj p.1, p.2)))
    else if isNumStart c then parseNum (c :: r)
    else none

/-- One level of the array-item parser: a value, then either a comma and
further items or the closing bracket. -/
def parseItemsStep (pval : Chars → Option (Json × Chars))
    (pit : Chars → Option (List Json × Chars))
    (cs : Chars) : Option (List Json × Chars) :=
  match pval cs with
  | none => none
  | some (v, r1) =>
    match skipWs r1 with
    | [] => none
    | c :: r2 =>
      if c = ',' then
        (match pit r2 with
         | none => none
         | some (vs, r3) => some (v :: vs, r3))
      else if c = ']' then some ([v], r2)
      else none

/-- One level of the object-member parser: a quoted key, a colon, a value,
then either a comma and further members or the closing brace. -/
def parseMemsStep (pv : Chars → Option (Json × Chars))
    (pms : Chars → Option (List (String × Json) × Chars))
    (cs : Chars) : Option (List (String × Json) × Chars) :=
  match skipWs cs with
  | [] => none
  | c :: r0 =>
    if c = '"' then
      (match parseStrChars r0 with
       | none => none
       | some (kcs, r1) =>
         match skipWs r1 with
         | [] => none
         | c1 :: r2 =>
           if c1 = ':' then
             (match pv r2 with
              | none => none
              | some (v, r3) =>
                match skipWs r3 with
                | [] => none
                | c2 :: r4 =>
                  if c2 = ',' then
                    (match pms r4 with
                     | none => none
                     | some (ms, r5) => some ((⟨kcs⟩, v) :: ms, r5))
                  else if c2 = '\x7d' then some ([(⟨kcs⟩, v)], r4)
                  else none)
           else none)
    else none

/-- The fuel-indexed family of the three mutually recursive parsers. -/
def parsers : Nat →
    (Chars → Option (Json × Chars)) ×
    (Chars → Option (List Json × Chars)) ×
    (Chars → Option (List (String × Json) × Chars))
  | 0 => (fun _ => none, fun _ => none, fun _ => none)
  | f + 1 =>
    (parseValStep (parsers f).2.1 (parsers f).2.2,
     parseItemsStep (parsers f).1 (parsers f).2.1,
     parseMemsStep (parsers f).1 (parsers f).2.2)

/-- Value parser at a given fuel level. -/
def parseVal (f : Nat) : Chars → Option (Json × Chars) := (parsers f).1

/-- Array-item parser at a given fuel level. -/
def parseItems (f : Nat) : Chars → Option (List Json × Chars) := (parsers f).2.1

/-- Object-member parser at a given fuel level. -/
def parseMems (f : Nat) : Chars → Option (List (String × Json) × Chars) := (parsers f).2.2

/-- Model of Python `json.loads`: parse one value and require that only
whitespace remains; any other input raises `json.JSONDecodeError`,
modelled as `none`. -/
def json_loads (s : String) : Option Json :=
  match parseVal (s.data.length + 1) s.data with
  | some (v, rest) => if skipWs rest = [] then some v else none
  | none => none

mutual

/-- Canonical serializer for `Json`, used to state which texts denote a
given JSON value; emits no whitespace and no escapes. -/
def renderChars : Json → Chars
  | Json.null => ['n', 'u', 'l', 'l']
  | Json.bool true => ['t', 'r', 'u', 'e']
  | Json.bool false => ['f', 'a', 'l', 's', 'e']
  | Json.num s => s.data
  | Json.str s => '"' :: s.data ++ ['"']
  | Json.arr xs => '[' :: renderItemsChars xs ++ [']']
  | Json.obj fs => '\x7b' :: renderMemsChars fs ++ ['\x7d']

/-- Serializer for the items of an array, comma separated. -/
def renderItemsChars : List Json → Chars
  | [] => []
  | [x] => renderChars x
  | x :: y :: r => renderChars x ++ ',' :: renderItemsChars (y :: r)

/-- Serializer for the members of an object, comma separated. -/
def renderMemsChars : List (String × Json) → Chars
  | [] => []
  | [(k, v)] => '"' :: k.data ++ '"' :: ':' :: renderChars v
  | (k, v) :: m :: r =>
    ('"' :: k.data ++ '"' :: ':' :: renderChars v) ++ ',' :: renderMemsChars (m :: r)

end

/-- Serializer packaged as a `String`. -/
def renderString (v : Json) : String := ⟨renderChars v⟩

/-- Characters allowed inside well-formed string scalars and keys: no
quote, no backslash (so no escapes are needed) and no backtick (so code
fence stripping cannot touch the payload). -/
def plainCh (c : Char) : Bool :=
  !(c == '"') && !(c == '\\') && !(c == '`')

mutual

/-- Well-formedness of a JSON value for the serializer: numerals are
nonempty digit runs and strings contain only plain characters. -/
def wfJson : Json → Bool
  | Json.null => true
  | Json.bool _ => true
  | Json.num s => !s.data.isEmpty && s.data.all Char.isDigit
  | Json.str s => s.data.all plainCh
  | Json.arr xs => wfItems xs
  | Json.obj fs => wfMems fs

/-- Well-formedness of a list of array items. -/
def wfItems : List Json → Bool
  | [] => true
  | x :: r => wfJson x && wfItems r

/-- Well-formedness of a list of object members. -/
def wfMems : List (String × Json) → Bool
  | [] => true
  | (k, v) :: r => k.data.all plainCh && wfJson v && wfMems r

end

mutual

/-- Fuel needed to parse a serialized value. -/
def jsize : Json → Nat
  | Json.null => 1
  | Json.bool _ => 1
  | Json.num _ => 1
  | Json.str _ => 1
  | Json.arr xs => 1 + jsizeItems xs
  | Json.obj fs => 1 + jsizeMems fs

/-- Fuel needed to parse serialized array items. -/
def jsizeItems : List Json → Nat
  | [] => 0
  | x :: r => 1 + jsize x + jsizeItems r

/-- Fuel needed to parse serialized object members. -/
def jsizeMems : List (String × Json) → Nat
  | [] => 0
  | (_, v) :: r => 1 + jsize v + jsizeMems r

end

/-- Whitespace stripped by Python `str.strip()` (ASCII range). -/
def isPyWs (c : Char) : Bool :=
  c == '\x0c' || c == '\x0b' || c == '\r' || c == '\n' || c == '\t' || c == ' '

/-- Model of Python `str.strip()`: drop whitespace from both ends. -/
def pyStripChars (l : Chars) : Chars :=
  ((l.dropWhile isPyWs).reverse.dropWhile isPyWs).reverse

/-- Whether `pat` is an initial segment of `l`. -/
def matchesAt : Chars → Chars → Bool
  | [], _ => true
  | _ :: _, [] => false
  | p :: ps, c :: cs => p == c && matchesAt ps cs

/-- Fuel-indexed worker for Python `str.replace`: scan left to right,
replacing each non-overlapping occurrence of `p0 :: ps` by `rep` and
resuming after the replacement. -/
def pyReplaceAux (p0 : Char) (ps rep : Chars) : Nat → Chars → Chars
  | 0, l => l
  | _ + 1, [] => []
  | f + 1, c :: cs =>
    if matchesAt (p0 :: ps) (c :: cs) then
      rep ++ pyReplaceAux p0 ps rep f (cs.drop ps.length)
    else
      c :: pyReplaceAux p0 ps rep f cs

/-- Model of Python `str.replace` on character lists (the patterns used by
the program are nonempty, so the empty-pattern case is inert). -/
def pyReplaceChars (pat rep l : Chars) : Chars :=
  match pat with
  | [] => l
  | p0 :: ps => pyReplaceAux p0 ps rep l.length l

/-- Model of the cleanup in `generate_automation_plan` line 49:
`response.text.strip().replace('```json', '').replace('```', '')`. -/
def strip_wrapping (s : String) : String :=
  ⟨pyReplaceChars "```".data [] (pyReplaceChars "```json".data [] (pyStripChars s.data))⟩

mutual

/-- Model of Python `repr` on decoded JSON values. -/
def pyRepr : Json → String
  | Json.null => "None"
  | Json.bool true => "True"
  | Json.bool false => "False"
  | Json.num s => s
  | Json.str s => "'" ++ s ++ "'"
  | Json.arr xs => "[" ++ pyReprList xs ++ "]"
  | Json.obj fs => "\x7b" ++ pyReprMems fs ++ "\x7d"

/-- Comma-separated `repr` of list elements. -/
def pyReprList : List Json → String
  | [] => ""
  | [x] => pyRepr x
  | x :: y :: r => pyRepr x ++ ", " ++ pyReprList (y :: r)

/-- Comma-separated `repr` of dict members. -/
def pyReprMems : List (String × Json) → String
  | [] => ""
  | [(k, v)] => "'" ++ k ++ "': " ++ pyRepr v
  | (k, v) :: m :: r => "'" ++ k ++ "': " ++ pyRepr v ++ ", " ++ pyReprMems (m :: r)

end

/-- Model of Python `str(x)` as used inside the executor's f-strings,
where `x` is `step.get(...)`: `None` for a missing key, the string itself
for strings, `repr`-style text otherwise. -/
def pyStr : Option Json → String
  | none => "None"
  | some (Json.str s) => s
  | some j => pyRepr j

/-- Python type names of decoded JSON values, used in the text of
`AttributeError` and `TypeError` messages. -/
def pyTypeName : Json → String
  | Json.null => "NoneType"
  | Json.bool _ => "bool"
  | Json.num s => if s.data.any (fun c => c == '.' || c == 'e' || c == 'E') then "float" else "int"
  | Json.str _ => "str"
  | Json.arr _ => "list"
  | Json.obj _ => "dict"

/-- Model of Python `dict.get` on a decoded object: members are kept in
parse order and a later duplicate key overwrites an earlier one, so the
last match wins. -/
def jlookup : List (String × Json) → String → Option Json
  | [], _ => none
  | (k', v) :: rest, k =>
    match jlookup rest k with
    | some r => some r
    | none => if k' = k then some v else none

/-- Result of one awaited Python call: either a normal return carrying a
string payload (used by `inner_text`) or a raised exception carrying the
text of its message. -/
inductive PyOutcome where
  | ok (ret : String) : PyOutcome
  | raise (msg : String) : PyOutcome

/-- The environment deciding the outcome of each awaited browser-side
call, indexed by the position of the call in the run: call 0 is
`async_playwright().start()`, call 1 is `chromium.launch`, call 2 is
`browser.new_page()`, and subsequent indices are consumed one per
browser-driven step and finally by `page.pause()`. -/
abbrev BrowserEnv := Nat → PyOutcome

/-- Browser-side calls issued during a run, recorded in issue order. -/
inductive BCall where
  | start : BCall
  | launch : BCall
  | newPage : BCall
  | goto (url : Option Json) : BCall
  | typeText (selector text : Option Json) : BCall
  | click (selector : Option Json) : BCall
  | innerText (selector : Option Json) : BCall
  | pause : BCall
  | close : BCall
  | stop : BCall

/-- One entry of the executor's `results` list, kept structured; the
exact f-string text of each entry is produced by `renderLog`. -/
inductive LogLine where
  | navigated (url : Option Json) : LogLine
  | typed (text selector : Option Json) : LogLine
  | clicked (selector : Option Json) : LogLine
  | extracted (description : Option Json) (content : String) : LogLine
  | finished (message : Option Json) : LogLine
  | pausedInfo : LogLine
  | closeInfo : LogLine
  | errorOccurred (msg : String) : LogLine

/-- The exact text the source appends for each log entry. -/
def renderLog : LogLine → String
  | LogLine.navigated url => "Navigated to " ++ pyStr url
  | LogLine.typed text selector => "Typed '" ++ pyStr text ++ "' into '" ++ pyStr selector ++ "'"
  | LogLine.clicked selector => "Clicked on '" ++ pyStr selector ++ "'"
  | LogLine.extracted d content => "Extracted Data (" ++ pyStr d ++ "): " ++ content
  | LogLine.finished message => "Task finished: " ++ pyStr message
  | LogLine.pausedInfo => "\n✅ Automation finished. The browser is now paused."
  | LogLine.closeInfo => "Close the browser window manually to run a new command."
  | LogLine.errorOccurred msg => "An error occurred: " ++ msg

/-- Outcome of one iteration of the executor's `for step in plan` body:
continue to the next step, break out via `end`, or raise. -/
inductive StepRes where
  | cont (lg : List LogLine) (cs : List BCall) (c' : Nat) : StepRes
  | halt (lg : List LogLine) : StepRes
  | fail (cs : List BCall) (c' : Nat) (msg : String) : StepRes

/-- One iteration of the loop body of `execute_playwright_plan`
(src/app.py lines 67-90): dispatch on `step.get("action")` through the
`elif` chain; a step that is not a dict raises `AttributeError` at the
`.get` call; an unmatched action value falls through silently. -/
def doStep (env : BrowserEnv) (st : Json) (c : Nat) : StepRes :=
  match st with
  | Json.obj fs =>
    match jlookup fs "action" with
    | some (Json.str k) =>
      if k = "navigate" then
        let url := jlookup fs "url"
        match env c with
        | PyOutcome.ok _ => StepRes.cont [LogLine.navigated url] [BCall.goto url] (c + 1)
        | PyOutcome.raise m => StepRes.fail [BCall.goto url] (c + 1) m
      else if k = "type" then
        let sel := jlookup fs "selector"
        let tx := jlookup fs "text"
        match env c with
        | PyOutcome.ok _ => StepRes.cont [LogLine.typed tx sel] [BCall.typeText sel tx] (c + 1)
        | PyOutcome.raise m => StepRes.fail [BCall.typeText sel tx] (c + 1) m
      else if k = "click" then
        let sel := jlookup fs "selector"
        match env c with
        | PyOutcome.ok _ => StepRes.cont [LogLine.clicked sel] [BCall.click sel] (c + 1)
        | PyOutcome.raise m => StepRes.fail [BCall.click sel] (c + 1) m
      else if k = "extract_text" then
        let sel := jlookup fs "selector"
        let d := jlookup fs "description"
        match env c with
        | PyOutcome.ok ret => StepRes.cont [LogLine.extracted d ret] [BCall.innerText sel] (c + 1)
        | PyOutcome.raise m => StepRes.fail [BCall.innerText sel] (c + 1) m
      else if k = "end" then
        StepRes.halt [LogLine.finished (jlookup fs "message")]
      else
        StepRes.cont [] [] c
    | some _ => StepRes.cont [] [] c
    | none => StepRes.cont [] [] c
  | other => StepRes.fail [] c ("'" ++ pyTypeName other ++ "' object has no attribute 'get'")

/-- Accumulated outcome of the step loop: the `results` entries appended,
the browser calls issued, the plan indices whose loop body ran, the call
counter after the loop and the first uncaught step failure, if any. -/
structure StepsOut where
  log : List LogLine
  calls : List BCall
  processed : List Nat
  counter : Nat
  failure : Option (Nat × String)

/-- The executor's `for step in plan` loop from index `i` on, with `c`
awaited calls already issued. -/
def runStepsFrom (env : BrowserEnv) : List Json → Nat → Nat → StepsOut
  | [], _, c => ⟨[], [], [], c, none⟩
  | st :: rest, i, c =>
    match doStep env st c with
    | StepRes.fail cs c' m => ⟨[], cs, [i], c', some (i, m)⟩
    | StepRes.halt lg => ⟨lg, [], [i], c, none⟩
    | StepRes.cont lg cs c' =>
      let r := runStepsFrom env rest (i + 1) c'
      ⟨lg ++ r.log, cs ++ r.calls, i :: r.processed, r.counter, r.failure⟩

/-- Model of Python `for step in plan` over an arbitrary decoded value:
lists iterate their elements, strings iterate their characters, dicts
iterate their keys, and other values raise `TypeError` at the loop head. -/
def iterElems : Json → Except String (List Json)
  | Json.arr xs => Except.ok xs
  | Json.str s => Except.ok (s.data.map (fun c => Json.str ⟨[c]⟩))
  | Json.obj fs => Except.ok (fs.map (fun p => Json.str p.1))
  | j => Except.error ("'" ++ pyTypeName j ++ "' object is not iterable")

/-- Trace of one call of `execute_playwright_plan`: the final `results`
list, the browser calls issued in order (including the `finally`
teardown), the processed plan indices, the first step failure if any,
and the message caught by the `except` clause if any. -/
structure ExecTrace where
  log : List LogLine
  calls : List BCall
  processed : List Nat
  stepFailure : Option (Nat × String)
  caught : Option String

/-- Whether the three acquisition calls (`start`, `launch`, `new_page`)
all succeed under the given environment. -/
def acquiredOk (env : BrowserEnv) : Bool :=
  match env 0, env 1, env 2 with
  | PyOutcome.ok _, PyOutcome.ok _, PyOutcome.ok _ => true
  | _, _, _ => false

/-- Model of `execute_playwright_plan` (src/app.py lines 55-106).  The
`try` block acquires the session (calls 0, 1, 2), runs the step loop,
appends the two fixed informational lines and awaits `page.pause()`;
any exception raised inside the `try` block is caught by the bare
`except` clause, which appends `An error occurred: ...`; the `finally`
clause closes the browser when `chromium.launch` succeeded and stops
the driver when `start` succeeded. -/
def runExec (env : BrowserEnv) (plan : Json) : ExecTrace :=
  match env 0 with
  | PyOutcome.raise m => ⟨[LogLine.errorOccurred m], [BCall.start], [], none, some m⟩
  | PyOutcome.ok _ =>
    match env 1 with
    | PyOutcome.raise m =>
      ⟨[LogLine.errorOccurred m], [BCall.start, BCall.launch, BCall.stop], [], none, some m⟩
    | PyOutcome.ok _ =>
      match env 2 with
      | PyOutcome.raise m =>
        ⟨[LogLine.errorOccurred m],
         [BCall.start, BCall.launch, BCall.newPage, BCall.close, BCall.stop], [], none, some m⟩
      | PyOutcome.ok _ =>
        match iterElems plan with
        | Except.error m =>
          ⟨[LogLine.errorOccurred m],
           [BCall.start, BCall.launch, BCall.newPage, BCall.close, BCall.stop], [], none, some m⟩
        | Except.ok steps =>
          let s := runStepsFrom env steps 0 3
          match s.failure with
          | some (i, m) =>
            ⟨s.log ++ [LogLine.errorOccurred m],
             [BCall.start, BCall.launch, BCall.newPage] ++ s.calls ++ [BCall.close, BCall.stop],
             s.processed, some (i, m), some m⟩
          | none =>
            match env s.counter with
            | PyOutcome.ok _ =>
              ⟨s.log ++ [LogLine.pausedInfo, LogLine.closeInfo],
               [BCall.start, BCall.launch, BCall.newPage] ++ s.calls ++
                 [BCall.pause, BCall.close, BCall.stop],
               s.processed, none, none⟩
            | PyOutcome.raise m =>
              ⟨s.log ++ [LogLine.pausedInfo, LogLine.closeInfo, LogLine.errorOccurred m],
               [BCall.start, BCall.launch, BCall.newPage] ++ s.calls ++
                 [BCall.pause, BCall.close, BCall.stop],
               s.processed, none, some m⟩

/-- The string `execute_playwright_plan` returns:
`"\n".join(results)` over the accumulated entries. -/
def execute_playwright_plan (env : BrowserEnv) (plan : Json) : String :=
  String.intercalate "\n" ((runExec env plan).log.map renderLog)

/-- Environment of one orchestrator run: the configured API key (if any),
the external translator as a function from the full instruction text to
its returned text or a raised error, and the browser environment. -/
structure OrchEnv where
  apiKey : Option String
  generate : String → Except String String
  benv : BrowserEnv

/-- Model of `configure_nlp_module` (src/app.py lines 15-23): raises
`ValueError` when no API key is configured. -/
def configure_nlp_module (o : OrchEnv) : Except String Unit :=
  match o.apiKey with
  | none => Except.error "Gemini API key not found. Please set it in the .env file."
  | some _ => Except.ok ()

/-- The fixed instruction template of `generate_automation_plan`
(src/app.py lines 30-45) with the user's request embedded. -/
def structured_prompt (user_prompt : String) : String :=
  "\n    You are an expert at converting user requests into a structured series of browser automation steps.\n    Based on the user's request, provide a JSON array of actions to be executed by Playwright.\n    \n    The available actions are: \"navigate\", \"click\", \"type\", \"extract_text\", \"end\".\n    \n    - \"navigate\": Needs a \"url\" parameter.\n    - \"click\": Needs a \"selector\" parameter (a CSS selector).\n    - \"type\": Needs a \"selector\" and a \"text\" parameter.\n    - \"extract_text\": Needs a \"selector\" and a \"description\" for what the text is.\n    - \"end\": Signifies the end of the task and has a \"message\" parameter to show the user.\n    \n    User Request: \"" ++ user_prompt ++ "\"\n    \n    Provide only the JSON array as your response.\n    "

/-- Model of `generate_automation_plan` (src/app.py lines 26-50): invoke
the translator on the instruction template and clean its output with
`strip_wrapping`; a raised translator error propagates. -/
def generate_automation_plan (o : OrchEnv) (user_prompt : String) : Except String String :=
  match o.generate (structured_prompt user_prompt) with
  | Except.error e => Except.error e
  | Except.ok text => Except.ok (strip_wrapping text)

/-- Model of `brain_orchestrator` (src/app.py lines 111-126).  The first
component is the stream the caller receives: `Except.error` means an
exception propagated to the caller uncaught, `Except.ok msgs` the list
of yielded status strings.  The second component records the browser
calls issued, `[]` when `execute_playwright_plan` was never invoked.
`configure_nlp_module` and `generate_automation_plan` run before the
`try` block, so their exceptions propagate; inside the `try` block a
`json.JSONDecodeError` yields the decode diagnostic. -/
def brain_orchestrator (o : OrchEnv) (user_prompt : String) :
    Except String (List String) × List BCall :=
  match configure_nlp_module o with
  | Except.error e => (Except.error e, [])
  | Except.ok _ =>
    match generate_automation_plan o user_prompt with
    | Except.error e => (Except.error e, [])
    | Except.ok plan_json_str =>
      let progress := "Generated Plan:\n" ++ plan_json_str ++ "\n\nExecuting..."
      match json_loads plan_json_str with
      | none =>
        (Except.ok [progress,
          "Error: Could not decode the plan from the LLM. Raw response:\n" ++ plan_json_str], [])
      | some plan =>
        (Except.ok [progress, execute_playwright_plan o.benv plan], (runExec o.benv plan).calls)

/-- Log entries appended by the step loop itself (as opposed to the two
fixed informational lines and the `except`-clause line). -/
def stepLine : LogLine → Bool
  | LogLine.navigated _ => true
  | LogLine.typed _ _ => true
  | LogLine.clicked _ => true
  | LogLine.extracted _ _ => true
  | LogLine.finished _ => true
  | _ => false

/-- The `except`-clause log entry. -/
def isErrLine : LogLine → Bool
  | LogLine.errorOccurred _ => true
  | _ => false

/-- Browser calls issued by the step loop itself. -/
def stepCall : BCall → Bool
  | BCall.goto _ => true
  | BCall.typeText _ _ => true
  | BCall.click _ => true
  | BCall.innerText _ => true
  | _ => false

/-- Recognizer for the `start` call. -/
def isCallStart : BCall → Bool
  | BCall.start => true
  | _ => false

/-- Recognizer for the `launch` call. -/
def isCallLaunch : BCall → Bool
  | BCall.launch => true
  | _ => false

/-- Recognizer for the `new_page` call. -/
def isCallNewPage : BCall → Bool
  | BCall.newPage => true
  | _ => false

/-- Recognizer for the `page.pause` call. -/
def isCallPause : BCall → Bool
  | BCall.pause => true
  | _ => false

/-- Recognizer for the `browser.close` call. -/
def isCallClose : BCall → Bool
  | BCall.close => true
  | _ => false

/-- Recognizer for the `playwright.stop` call. -/
def isCallStop : BCall → Bool
  | BCall.stop => true
  | _ => false

/-- A decoded action whose `action` value is the string `end`. -/
def isEndAction : Json → Bool
  | Json.obj fs =>
    (match jlookup fs "action" with
     | some (Json.str k) => k == "end"
     | _ => false)
  | _ => false

/-- The `message` field of a decoded action. -/
def endMessage : Json → Option Json
  | Json.obj fs => jlookup fs "message"
  | _ => none

/-- A decoded dict action whose `action` value matches none of the five
`elif` branches of the executor: a string outside the closed vocabulary,
a non-string value, or a missing key. -/
def isUnknownAction : Json → Bool
  | Json.obj fs =>
    (match jlookup fs "action" with
     | some (Json.str k) =>
       !(k == "navigate" || k == "type" || k == "click" || k == "extract_text" || k == "end")
     | some _ => true
     | none => true)
  | _ => false

/-- A decoded object. -/
def isObjJson : Json → Bool
  | Json.obj _ => true
  | _ => false

/-- Environment in which every awaited call succeeds (extracted texts are
empty). -/
def allOkEnv : BrowserEnv := fun _ => PyOutcome.ok ""

/-- Environment in which acquisition succeeds and every later call
raises `boom`. -/
def failAt3 : BrowserEnv := fun n => if n < 3 then PyOutcome.ok "" else PyOutcome.raise "boom"

/-- Sample decoded navigate action. -/
def navActExample : Json :=
  Json.obj [("action", Json.str "navigate"), ("url", Json.str "https://example.com")]

/-- Sample decoded end action with the given message. -/
def endActExample (m : String) : Json :=
  Json.obj [("action", Json.str "end"), ("message", Json.str m)]

/-- Combined shape of one loop iteration: entries it appends are step
lines and calls it issues are step calls. -/
def stepResOk : StepRes → Bool
  | StepRes.cont lg cs _ => lg.all stepLine && cs.all stepCall
  | StepRes.halt lg => lg.all stepLine
  | StepRes.fail cs _ _ => cs.all stepCall

theorem doStep_ok (env : BrowserEnv) (st : Json) (c : Nat) :
    stepResOk (doStep env st c) = true := by
  cases st <;> simp only [doStep, stepResOk, List.all_nil]
  case obj fs =>
    rcases hl : jlookup fs "action" with _ | v
    · simp [stepResOk]
    · cases v <;> simp only [stepResOk] <;> try rfl
      case str k =>
        split_ifs <;> (try cases env c) <;>
          simp [stepResOk, stepLine, stepCall, List.all_nil]

theorem doStep_end (env : BrowserEnv) (st : Json) (c : Nat)
    (h : isEndAction st = true) :
    doStep env st c = StepRes.halt [LogLine.finished (endMessage st)] := by
  cases st
  case obj fs =>
    simp only [isEndAction] at h
    rcases hl : jlookup fs "action" with _ | v <;> rw [hl] at h
    · simp at h
    · cases v
      case str k =>
        have hk : k = "end" := by simpa using h
        subst hk
        simp [doStep, hl, endMessage]
      all_goals simp at h
  all_goals simp [isEndAction] at h

theorem doStep_unknown (env : BrowserEnv) (st : Json) (c : Nat)
    (h : isUnknownAction st = true) :
    doStep env st c = StepRes.cont [] [] c := by
  cases st
  case obj fs =>
    simp only [isUnknownAction] at h
    rcases hl : jlookup fs "action" with _ | v <;> rw [hl] at h
    · simp [doStep, hl]
    · cases v
      case str k =>
        have h' : (((k ≠ "navigate" ∧ k ≠ "type") ∧ k ≠ "click") ∧ k ≠ "extract_text") ∧ k ≠ "end" := by
          simpa [not_or] using h
        obtain ⟨⟨⟨⟨h1, h2⟩, h3⟩, h4⟩, h5⟩ := h'
        simp [doStep, hl, h1, h2, h3, h4, h5]
      all_goals simp [doStep, hl]
  all_goals simp [isUnknownAction] at h

theorem runSteps_log_all (env : BrowserEnv) :
    ∀ (steps : List Json) (i c : Nat),
      ((runStepsFrom env steps i c).log.all stepLine) = true := by
  intro steps
  induction steps with
  | nil => intro i c; simp [runStepsFrom]
  | cons st rest ih =>
    intro i c
    have hok := doStep_ok env st c
    cases hds : doStep env st c <;> rw [hds] at hok <;> simp only [runStepsFrom, hds]
    case cont lg cs c' =>
      simp only [stepResOk, Bool.and_eq_true] at hok
      simp [List.all_append, hok.1, ih (i + 1) c']
    case halt lg => simpa [stepResOk] using hok
    case fail cs c' m => simp

theorem runSteps_calls_all (env : BrowserEnv) :
    ∀ (steps : List Json) (i c : Nat),
      ((runStepsFrom env steps i c).calls.all stepCall) = true := by
  intro steps
  induction steps with
  | nil => intro i c; simp [runStepsFrom]
  | cons st rest ih =>
    intro i c
    have hok := doStep_ok env st c
    cases hds : doStep env st c <;> rw [hds] at hok <;> simp only [runStepsFrom, hds]
    case cont lg cs c' =>
      simp only [stepResOk, Bool.and_eq_true] at hok
      simp [List.all_append, hok.2, ih (i + 1) c']
    case halt lg => simp
    case fail cs c' m => simpa [stepResOk] using hok

theorem runSteps_processed_bounds (env : BrowserEnv) :
    ∀ (steps : List Json) (i c : Nat),
      ∀ j ∈ (runStepsFrom env steps i c).processed, i ≤ j ∧ j < i + steps.length := by
  intro steps
  induction steps with
  | nil => intro i c j hj; simp [runStepsFrom] at hj
  | cons st rest ih =>
    intro i c j hj
    cases hds : doStep env st c <;> simp only [runStepsFrom, hds] at hj
    case cont lg cs c' =>
      simp only [List.mem_cons] at hj
      rcases hj with rfl | hj
      · simp only [List.length_cons]; omega
      · have := ih (i + 1) c' j hj
        simp only [List.length_cons]
        omega
    case halt lg =>
      simp at hj
      subst hj
      simp only [List.length_cons]; omega
    case fail cs c' m =>
      simp at hj
      subst hj
      simp only [List.length_cons]; omega

theorem runSteps_processed_sorted (env : BrowserEnv) :
    ∀ (steps : List Json) (i c : Nat),
      ((runStepsFrom env steps i c).processed).Pairwise (fun a b => a < b) := by
  intro steps
  induction steps with
  | nil => intro i c; simp [runStepsFrom]
  | cons st rest ih =>
    intro i c
    cases hds : doStep env st c <;> simp only [runStepsFrom, hds]
    case cont lg cs c' =>
      refine List.Pairwise.cons ?_ (ih (i + 1) c')
      intro j hj
      have := runSteps_processed_bounds env rest (i + 1) c' j hj
      omega
    case halt lg => simp
    case fail cs c' m => simp

theorem runSteps_failure_mem (env : BrowserEnv) :
    ∀ (steps : List Json) (i c fi : Nat) (m : String),
      (runStepsFrom env steps i c).failure = some (fi, m) →
      fi ∈ (runStepsFrom env steps i c).processed := by
  intro steps
  induction steps with
  | nil => intro i c fi m h; simp [runStepsFrom] at h
  | cons st rest ih =>
    intro i c fi m h
    cases hds : doStep env st c <;> simp only [runStepsFrom, hds] at h ⊢
    case cont lg cs c' =>
      exact List.mem_cons_of_mem i (ih (i + 1) c' fi m h)
    case halt lg => simp at h
    case fail cs c' m' =>
      simp at h
      simp [h.1]

theorem runSteps_failure_le (env : BrowserEnv) :
    ∀ (steps : List Json) (i c fi : Nat) (m : String),
      (runStepsFrom env steps i c).failure = some (fi, m) →
      ∀ j ∈ (runStepsFrom env steps i c).processed, j ≤ fi := by
  intro steps
  induction steps with
  | nil => intro i c fi m h; simp [runStepsFrom] at h
  | cons st rest ih =>
    intro i c fi m h j hj
    cases hds : doStep env st c <;> simp only [runStepsFrom, hds] at h hj
    case cont lg cs c' =>
      simp only [List.mem_cons] at hj
      rcases hj with heq | hj
      · have hmem := runSteps_failure_mem env rest (i + 1) c' fi m h
        have := runSteps_processed_bounds env rest (i + 1) c' fi hmem
        omega
      · exact ih (i + 1) c' fi m h j hj
    case halt lg => simp at h
    case fail cs c' m' =>
      simp at h hj
      omega

theorem runSteps_end_stop (env : BrowserEnv) :
    ∀ (steps : List Json) (i c k : Nat) (a : Json), steps[k]? = some a →
      isEndAction a = true →
      ∀ j ∈ (runStepsFrom env steps i c).processed, j ≤ i + k := by
  intro steps
  induction steps with
  | nil => intro i c k a ha; simp at ha
  | cons st rest ih =>
    intro i c k a ha hend j hj
    cases k with
    | zero =>
      simp at ha
      subst ha
      rw [runStepsFrom, doStep_end env st c hend] at hj
      simp at hj
      omega
    | succ k' =>
      simp at ha
      cases hds : doStep env st c <;> simp only [runStepsFrom, hds] at hj
      case cont lg cs c' =>
        simp only [List.mem_cons] at hj
        rcases hj with rfl | hj
        · omega
        · have := ih (i + 1) c' k' a ha hend j hj
          omega
      case halt lg => simp at hj; omega
      case fail cs c' m => simp at hj; omega

theorem runSteps_end_reached (env : BrowserEnv) :
    ∀ (steps : List Json) (i c k : Nat) (a : Json), steps[k]? = some a →
      isEndAction a = true →
      (i + k) ∈ (runStepsFrom env steps i c).processed →
      LogLine.finished (endMessage a) ∈ (runStepsFrom env steps i c).log ∧
        (runStepsFrom env steps i c).failure = none := by
  intro steps
  induction steps with
  | nil => intro i c k a ha; simp at ha
  | cons st rest ih =>
    intro i c k a ha hend hmem
    cases k with
    | zero =>
      simp at ha
      subst ha
      rw [runStepsFrom, doStep_end env st c hend]
      simp
    | succ k' =>
      simp at ha
      cases hds : doStep env st c <;> simp only [runStepsFrom, hds] at hmem ⊢
      case cont lg cs c' =>
        simp only [List.mem_cons] at hmem
        rcases hmem with heq | hmem
        · exact absurd heq (by omega)
        · have hstep : (i + 1) + k' ∈ (runStepsFrom env rest (i + 1) c').processed := by
            have : i + (k' + 1) = (i + 1) + k' := by omega
            rwa [this] at hmem
          have ⟨hlog, hfail⟩ := ih (i + 1) c' k' a ha hend hstep
          exact ⟨List.mem_append_right lg hlog, hfail⟩
      case halt lg =>
        simp at hmem
      case fail cs c' m =>
        simp at hmem

theorem all_stepLine_facts (l : List LogLine) (h : l.all stepLine = true) :
    LogLine.pausedInfo ∉ l ∧ LogLine.closeInfo ∉ l ∧ l.countP isErrLine = 0 := by
  rw [List.all_eq_true] at h
  refine ⟨fun hm => ?_, fun hm => ?_, ?_⟩
  · have := h _ hm; simp [stepLine] at this
  · have := h _ hm; simp [stepLine] at this
  · rw [List.countP_eq_zero]
    intro x hx
    have := h x hx
    cases x <;> simp [stepLine] at this ⊢ <;> simp [isErrLine]

theorem all_stepLine_no_error (l : List LogLine) (h : l.all stepLine = true) :
    ∀ m, LogLine.errorOccurred m ∉ l := by
  rw [List.all_eq_true] at h
  intro m hm
  have := h _ hm
  simp [stepLine] at this

theorem all_stepCall_facts (l : List BCall) (h : l.all stepCall = true) :
    BCall.pause ∉ l ∧ l.countP isCallStart = 0 ∧ l.countP isCallLaunch = 0 ∧
      l.countP isCallNewPage = 0 ∧ l.countP isCallPause = 0 ∧
      l.countP isCallClose = 0 ∧ l.countP isCallStop = 0 := by
  rw [List.all_eq_true] at h
  constructor
  · intro hm; have := h _ hm; simp [stepCall] at this
  refine ⟨?_, ?_, ?_, ?_, ?_, ?_⟩ <;>
    (rw [List.countP_eq_zero]; intro x hx; have := h x hx;
     cases x <;> simp_all [stepCall, isCallStart, isCallLaunch, isCallNewPage,
       isCallPause, isCallClose, isCallStop])

/-- C6: a decoded action whose kind is outside the closed vocabulary
performs no browser operation, appends no log line, raises no error,
and the loop continues with the next action in order (only the record
of processed indices grows). -/
theorem C6_unknown_action_skipped (env : BrowserEnv) (st : Json) (rest : List Json)
    (i c : Nat) (h : isUnknownAction st = true) :
    runStepsFrom env (st :: rest) i c =
      ⟨(runStepsFrom env rest (i + 1) c).log,
       (runStepsFrom env rest (i + 1) c).calls,
       i :: (runStepsFrom env rest (i + 1) c).processed,
       (runStepsFrom env rest (i + 1) c).counter,
       (runStepsFrom env rest (i + 1) c).failure⟩ := by
  simp [runStepsFrom, doStep_unknown env st c h]

/-- C6 witness: a `scroll` action is skipped with no call, no log entry
and no failure. -/
theorem C6_witness :
    isUnknownAction (Json.obj [("action", Json.str "scroll")]) = true ∧
    runStepsFrom allOkEnv [Json.obj [("action", Json.str "scroll")]] 0 3 =
      ⟨[], [], [0], 3, none⟩ := by
  refine ⟨rfl, ?_⟩
  rw [C6_unknown_action_skipped allOkEnv (Json.obj [("action", Json.str "scroll")]) [] 0 3 rfl]
  rfl

/-- C8: on the two-step navigate-then-end plan with a succeeding
environment, the log is exactly the navigation line immediately followed
by the task-finished line (then the two fixed informational lines), and
only indices 0 and 1 are processed. -/
theorem C8_scenario_a :
    (runExec allOkEnv (Json.arr [navActExample, endActExample "done"])).log.map renderLog =
      ["Navigated to https://example.com", "Task finished: done",
       "\n✅ Automation finished. The browser is now paused.",
       "Close the browser window manually to run a new command."] ∧
    (runExec allOkEnv (Json.arr [navActExample, endActExample "done"])).processed = [0, 1] :=
  ⟨rfl, rfl⟩

theorem acquiredOk_elim (env : BrowserEnv) (hacq : acquiredOk env = true) :
    (∃ a, env 0 = PyOutcome.ok a) ∧ (∃ b, env 1 = PyOutcome.ok b) ∧
      (∃ c, env 2 = PyOutcome.ok c) := by
  unfold acquiredOk at hacq
  cases h0 : env 0 with
  | raise m => rw [h0] at hacq; simp at hacq
  | ok a =>
    cases h1 : env 1 with
    | raise m => rw [h0, h1] at hacq; simp at hacq
    | ok b =>
      cases h2 : env 2 with
      | raise m => rw [h0, h1, h2] at hacq; simp at hacq
      | ok c => exact ⟨⟨a, rfl⟩, ⟨b, rfl⟩, ⟨c, rfl⟩⟩

theorem runExec_arr_fail (env : BrowserEnv) (steps : List Json) (i : Nat) (m : String)
    (hacq : acquiredOk env = true)
    (hf : (runStepsFrom env steps 0 3).failure = some (i, m)) :
    runExec env (Json.arr steps) =
      ⟨(runStepsFrom env steps 0 3).log ++ [LogLine.errorOccurred m],
       [BCall.start, BCall.launch, BCall.newPage] ++ (runStepsFrom env steps 0 3).calls ++
         [BCall.close, BCall.stop],
       (runStepsFrom env steps 0 3).processed, some (i, m), some m⟩ := by
  obtain ⟨⟨a, h0⟩, ⟨b, h1⟩, ⟨c, h2⟩⟩ := acquiredOk_elim env hacq
  simp [runExec, h0, h1, h2, iterElems, hf]

theorem runExec_arr_ok (env : BrowserEnv) (steps : List Json) (r : String)
    (hacq : acquiredOk env = true)
    (hf : (runStepsFrom env steps 0 3).failure = none)
    (hp : env (runStepsFrom env steps 0 3).counter = PyOutcome.ok r) :
    runExec env (Json.arr steps) =
      ⟨(runStepsFrom env steps 0 3).log ++ [LogLine.pausedInfo, LogLine.closeInfo],
       [BCall.start, BCall.launch, BCall.newPage] ++ (runStepsFrom env steps 0 3).calls ++
         [BCall.pause, BCall.close, BCall.stop],
       (runStepsFrom env steps 0 3).processed, none, none⟩ := by
  obtain ⟨⟨a, h0⟩, ⟨b, h1⟩, ⟨c, h2⟩⟩ := acquiredOk_elim env hacq
  simp [runExec, h0, h1, h2, iterElems, hf, hp]

theorem runExec_arr_pausefail (env : BrowserEnv) (steps : List Json) (m : String)
    (hacq : acquiredOk env = true)
    (hf : (runStepsFrom env steps 0 3).failure = none)
    (hp : env (runStepsFrom env steps 0 3).counter = PyOutcome.raise m) :
    runExec env (Json.arr steps) =
      ⟨(runStepsFrom env steps 0 3).log ++
         [LogLine.pausedInfo, LogLine.closeInfo, LogLine.errorOccurred m],
       [BCall.start, BCall.launch, BCall.newPage] ++ (runStepsFrom env steps 0 3).calls ++
         [BCall.pause, BCall.close, BCall.stop],
       (runStepsFrom env steps 0 3).processed, none, some m⟩ := by
  obtain ⟨⟨a, h0⟩, ⟨b, h1⟩, ⟨c, h2⟩⟩ := acquiredOk_elim env hacq
  simp [runExec, h0, h1, h2, iterElems, hf, hp]

/-- C1 counterexample: with acquisition succeeding and the navigate step
raising `boom`, the run ends in the error state but the two fixed
informational lines are never appended and `page.pause` is never
awaited, contradicting the claim that they occur regardless of
`Finished(error)`.  The session is still released. -/
theorem C1_counterexample :
    acquiredOk failAt3 = true ∧
    (runExec failAt3 (Json.arr [navActExample])).stepFailure = some (0, "boom") ∧
    (runExec failAt3 (Json.arr [navActExample])).log = [LogLine.errorOccurred "boom"] ∧
    LogLine.pausedInfo ∉ (runExec failAt3 (Json.arr [navActExample])).log ∧
    (runExec failAt3 (Json.arr [navActExample])).calls =
      [BCall.start, BCall.launch, BCall.newPage,
       BCall.goto (some (Json.str "https://example.com")), BCall.close, BCall.stop] ∧
    BCall.pause ∉ (runExec failAt3 (Json.arr [navActExample])).calls := by
  refine ⟨rfl, rfl, rfl, ?_, rfl, ?_⟩
  · rw [show (runExec failAt3 (Json.arr [navActExample])).log =
        [LogLine.errorOccurred "boom"] from rfl]
    simp
  · rw [show (runExec failAt3 (Json.arr [navActExample])).calls =
        [BCall.start, BCall.launch, BCall.newPage,
         BCall.goto (some (Json.str "https://example.com")), BCall.close, BCall.stop] from rfl]
    simp

/-- C1 (amended): once session acquisition succeeds, the executor appends
the two fixed informational lines and awaits `page.pause` before
releasing the session exactly when no step raised (`Finished(normal)`,
via `end` or plan exhaustion); when a step raises (`Finished(error)`),
it appends only the error line and releases without the informational
lines and without pausing. -/
theorem C1_pause_only_without_step_error (env : BrowserEnv) (steps : List Json)
    (hacq : acquiredOk env = true) :
    ((runExec env (Json.arr steps)).stepFailure = none →
      (∃ pre post, (runExec env (Json.arr steps)).log =
        pre ++ [LogLine.pausedInfo, LogLine.closeInfo] ++ post) ∧
      (∃ cpre, (runExec env (Json.arr steps)).calls =
        cpre ++ [BCall.pause, BCall.close, BCall.stop])) ∧
    (∀ i m, (runExec env (Json.arr steps)).stepFailure = some (i, m) →
      LogLine.pausedInfo ∉ (runExec env (Json.arr steps)).log ∧
      LogLine.closeInfo ∉ (runExec env (Json.arr steps)).log ∧
      BCall.pause ∉ (runExec env (Json.arr steps)).calls ∧
      BCall.close ∈ (runExec env (Json.arr steps)).calls ∧
      BCall.stop ∈ (runExec env (Json.arr steps)).calls) := by
  have hlg := all_stepLine_facts _ (runSteps_log_all env steps 0 3)
  have hcl := all_stepCall_facts _ (runSteps_calls_all env steps 0 3)
  cases hf : (runStepsFrom env steps 0 3).failure with
  | none =>
    cases hp : env (runStepsFrom env steps 0 3).counter with
    | ok r =>
      rw [runExec_arr_ok env steps r hacq hf hp]
      constructor
      · intro _
        refine ⟨⟨(runStepsFrom env steps 0 3).log, [], by simp⟩,
                ⟨[BCall.start, BCall.launch, BCall.newPage] ++
                  (runStepsFrom env steps 0 3).calls, by simp⟩⟩
      · intro i m him
        exact absurd him (by simp)
    | raise m' =>
      rw [runExec_arr_pausefail env steps m' hacq hf hp]
      constructor
      · intro _
        refine ⟨⟨(runStepsFrom env steps 0 3).log, [LogLine.errorOccurred m'], by simp⟩,
                ⟨[BCall.start, BCall.launch, BCall.newPage] ++
                  (runStepsFrom env steps 0 3).calls, by simp⟩⟩
      · intro i m him
        exact absurd him (by simp)
  | some im =>
    obtain ⟨fi, fm⟩ := im
    rw [runExec_arr_fail env steps fi fm hacq hf]
    constructor
    · intro hnone
      exact absurd hnone (by simp)
    · intro i m _
      refine ⟨?_, ?_, ?_, by simp, by simp⟩
      · simp only [List.mem_append]
        rintro (h | h)
        · exact hlg.1 h
        · simp at h
      · simp only [List.mem_append]
        rintro (h | h)
        · exact hlg.2.1 h
        · simp at h
      · simp only [List.mem_append]
        rintro ((h | h) | h)
        · simp at h
        · exact hcl.1 h
        · simp at h

/-- C1 witness: on the empty plan with an all-succeeding environment the
run finishes normally, the informational lines are in the log and the
pause precedes the release. -/
theorem C1_witness :
    (runExec allOkEnv (Json.arr [])).stepFailure = none ∧
    (∃ pre post, (runExec allOkEnv (Json.arr [])).log =
      pre ++ [LogLine.pausedInfo, LogLine.closeInfo] ++ post) ∧
    (∃ cpre, (runExec allOkEnv (Json.arr [])).calls =
      cpre ++ [BCall.pause, BCall.close, BCall.stop]) := by
  have h := (C1_pause_only_without_step_error allOkEnv [] rfl).1 rfl
  exact ⟨rfl, h.1, h.2⟩

/-- C4 counterexample: the plan with end actions at indices 0 and 1
contains an end action at index 1 carrying message `bb`, yet the run
(under an all-succeeding environment) never appends any log line
containing that message: the loop breaks at the first end action, so the
claim fails for the end action at index 1. -/
theorem C4_counterexample :
    ([endActExample "aa", endActExample "bb"][1]? = some (endActExample "bb")) ∧
    isEndAction (endActExample "bb") = true ∧
    (runExec allOkEnv (Json.arr [endActExample "aa", endActExample "bb"])).log =
      [LogLine.finished (some (Json.str "aa")), LogLine.pausedInfo, LogLine.closeInfo] ∧
    LogLine.finished (some (Json.str "bb")) ∉
      (runExec allOkEnv (Json.arr [endActExample "aa", endActExample "bb"])).log := by
  refine ⟨rfl, rfl, rfl, ?_⟩
  rw [show (runExec allOkEnv (Json.arr [endActExample "aa", endActExample "bb"])).log =
      [LogLine.finished (some (Json.str "aa")), LogLine.pausedInfo, LogLine.closeInfo] from rfl]
  simp

/-- C4 (amended): the executor processes actions in strict input order
(processed indices are strictly increasing); whenever the plan has an
end action at index `k`, no action at any index greater than `k` is
processed; and if the loop body actually reaches index `k` (no earlier
failure and no earlier end action), it appends the
`Task finished: message` line and the run has no step failure. -/
theorem C4_end_semantics (env : BrowserEnv) (steps : List Json) (k : Nat) (a : Json)
    (hk : steps[k]? = some a) (hend : isEndAction a = true)
    (hacq : acquiredOk env = true) :
    (∀ j ∈ (runExec env (Json.arr steps)).processed, j ≤ k) ∧
    ((runExec env (Json.arr steps)).processed).Pairwise (fun x y => x < y) ∧
    (k ∈ (runExec env (Json.arr steps)).processed →
      LogLine.finished (endMessage a) ∈ (runExec env (Json.arr steps)).log ∧
      (runExec env (Json.arr steps)).stepFailure = none) := by
  have hstop := runSteps_end_stop env steps 0 3 k a hk hend
  have hsort := runSteps_processed_sorted env steps 0 3
  cases hf : (runStepsFrom env steps 0 3).failure with
  | none =>
    cases hp : env (runStepsFrom env steps 0 3).counter with
    | ok r =>
      rw [runExec_arr_ok env steps r hacq hf hp]
      refine ⟨fun j hj => by simpa using hstop j hj, hsort, fun hmem => ?_⟩
      have hre := runSteps_end_reached env steps 0 3 k a hk hend (by simpa using hmem)
      exact ⟨List.mem_append_left _ hre.1, rfl⟩
    | raise m' =>
      rw [runExec_arr_pausefail env steps m' hacq hf hp]
      refine ⟨fun j hj => by simpa using hstop j hj, hsort, fun hmem => ?_⟩
      have hre := runSteps_end_reached env steps 0 3 k a hk hend (by simpa using hmem)
      exact ⟨List.mem_append_left _ hre.1, rfl⟩
  | some im =>
    obtain ⟨fi, fm⟩ := im
    rw [runExec_arr_fail env steps fi fm hacq hf]
    refine ⟨fun j hj => by simpa using hstop j hj, hsort, fun hmem => ?_⟩
    have hre := runSteps_end_reached env steps 0 3 k a hk hend (by simpa using hmem)
    rw [hf] at hre
    exact absurd hre.2 (by simp)

/-- C4 witness: on the navigate-then-end plan the end action at index 1
is reached, the `Task finished: done` line is appended, no index above 1
is processed and the run has no step failure. -/
theorem C4_witness :
    ([navActExample, endActExample "done"][1]? = some (endActExample "done")) ∧
    (1 ∈ (runExec allOkEnv (Json.arr [navActExample, endActExample "done"])).processed) ∧
    LogLine.finished (some (Json.str "done")) ∈
      (runExec allOkEnv (Json.arr [navActExample, endActExample "done"])).log ∧
    (runExec allOkEnv (Json.arr [navActExample, endActExample "done"])).stepFailure = none := by
  have hmem : 1 ∈ (runExec allOkEnv (Json.arr [navActExample, endActExample "done"])).processed := by
    rw [show (runExec allOkEnv (Json.arr [navActExample, endActExample "done"])).processed =
        [0, 1] from rfl]
    simp
  have h := (C4_end_semantics allOkEnv [navActExample, endActExample "done"] 1
    (endActExample "done") rfl rfl rfl).2.2 hmem
  exact ⟨rfl, hmem, h.1, h.2⟩

/-- C9: when a step raises after successful acquisition, the run ends in
`Finished(error)`; the log is the successfully completed steps' lines
(not rolled back) followed by exactly one error line carrying the
failure message; no action beyond the failing index is processed, no
index is processed twice (no retry), and the terminal pause is skipped. -/
theorem C9_first_step_error_aborts (env : BrowserEnv) (steps : List Json) (i : Nat) (m : String)
    (hacq : acquiredOk env = true)
    (hf : (runStepsFrom env steps 0 3).failure = some (i, m)) :
    (runExec env (Json.arr steps)).stepFailure = some (i, m) ∧
    (runExec env (Json.arr steps)).log =
      (runStepsFrom env steps 0 3).log ++ [LogLine.errorOccurred m] ∧
    (runExec env (Json.arr steps)).log.countP isErrLine = 1 ∧
    (∀ j ∈ (runExec env (Json.arr steps)).processed, j ≤ i) ∧
    ((runExec env (Json.arr steps)).processed).Pairwise (fun x y => x < y) ∧
    BCall.pause ∉ (runExec env (Json.arr steps)).calls := by
  have hlg := all_stepLine_facts _ (runSteps_log_all env steps 0 3)
  have hcl := all_stepCall_facts _ (runSteps_calls_all env steps 0 3)
  rw [runExec_arr_fail env steps i m hacq hf]
  refine ⟨rfl, rfl, ?_, ?_, ?_, ?_⟩
  · simp [List.countP_append, hlg.2.2, isErrLine]
  · intro j hj
    exact runSteps_failure_le env steps 0 3 i m hf j (by simpa using hj)
  · exact runSteps_processed_sorted env steps 0 3
  · simp only [List.mem_append]
    rintro ((h | h) | h)
    · simp at h
    · exact hcl.1 h
    · simp at h

/-- C9 witness: concrete failing navigate step under `failAt3`. -/
theorem C9_witness :
    (runStepsFrom failAt3 [navActExample] 0 3).failure = some (0, "boom") ∧
    (runExec failAt3 (Json.arr [navActExample])).log.countP isErrLine = 1 ∧
    (runExec failAt3 (Json.arr [navActExample])).stepFailure = some (0, "boom") := by
  have h := C9_first_step_error_aborts failAt3 [navActExample] 0 "boom" rfl rfl
  exact ⟨rfl, h.2.2.1, h.1⟩

/-- C5: per execution the engine start is attempted exactly once, release
calls never run twice, and once acquisition succeeds the launch and page
creation happen exactly once and both release calls (`browser.close`,
`playwright.stop`) run exactly once on every exit path. -/
theorem C5_session_lifecycle (env : BrowserEnv) (plan : Json) :
    (runExec env plan).calls.countP isCallStart = 1 ∧
    (runExec env plan).calls.countP isCallClose ≤ 1 ∧
    (runExec env plan).calls.countP isCallStop ≤ 1 ∧
    (acquiredOk env = true →
      (runExec env plan).calls.countP isCallLaunch = 1 ∧
      (runExec env plan).calls.countP isCallNewPage = 1 ∧
      (runExec env plan).calls.countP isCallClose = 1 ∧
      (runExec env plan).calls.countP isCallStop = 1) := by
  cases h0 : env 0 with
  | raise m0 =>
    have hA : acquiredOk env = false := by unfold acquiredOk; rw [h0]
    simp [runExec, h0, hA, List.countP_cons, isCallStart, isCallClose, isCallStop,
      isCallLaunch, isCallNewPage]
  | ok a =>
    cases h1 : env 1 with
    | raise m1 =>
      have hA : acquiredOk env = false := by unfold acquiredOk; rw [h0, h1]
      simp [runExec, h0, h1, hA, List.countP_cons, isCallStart, isCallClose, isCallStop,
        isCallLaunch, isCallNewPage]
    | ok b =>
      cases h2 : env 2 with
      | raise m2 =>
        have hA : acquiredOk env = false := by unfold acquiredOk; rw [h0, h1, h2]
        simp [runExec, h0, h1, h2, hA, List.countP_cons, isCallStart, isCallClose,
          isCallStop, isCallLaunch, isCallNewPage]
      | ok c =>
        cases hie : iterElems plan with
        | error m' =>
          simp [runExec, h0, h1, h2, hie, List.countP_cons, isCallStart, isCallClose,
            isCallStop, isCallLaunch, isCallNewPage]
        | ok steps =>
          obtain ⟨-, hs1, hs2, hs3, hs4, hs5, hs6⟩ :=
            all_stepCall_facts _ (runSteps_calls_all env steps 0 3)
          cases hf : (runStepsFrom env steps 0 3).failure with
          | some im =>
            obtain ⟨fi, fm⟩ := im
            simp [runExec, h0, h1, h2, hie, hf, List.countP_append, List.countP_cons,
              isCallStart, isCallClose, isCallStop, isCallLaunch, isCallNewPage,
              hs1, hs2, hs3, hs5, hs6]
          | none =>
            cases hp : env (runStepsFrom env steps 0 3).counter with
            | ok r =>
              simp [runExec, h0, h1, h2, hie, hf, hp, List.countP_append, List.countP_cons,
                isCallStart, isCallClose, isCallStop, isCallLaunch, isCallNewPage,
                hs1, hs2, hs3, hs5, hs6]
            | raise m' =>
              simp [runExec, h0, h1, h2, hie, hf, hp, List.countP_append, List.countP_cons,
                isCallStart, isCallClose, isCallStop, isCallLaunch, isCallNewPage,
                hs1, hs2, hs3, hs5, hs6]

/-- C5 witness: under the all-succeeding environment both release calls
run exactly once. -/
theorem C5_witness :
    acquiredOk allOkEnv = true ∧
    (runExec allOkEnv (Json.arr [navActExample])).calls.countP isCallClose = 1 ∧
    (runExec allOkEnv (Json.arr [navActExample])).calls.countP isCallStop = 1 := by
  have h := (C5_session_lifecycle allOkEnv (Json.arr [navActExample])).2.2.2 rfl
  exact ⟨rfl, h.2.2.1, h.2.2.2⟩

/-- C10: the plan execution function is total at its boundary: for every
environment (every pattern of raised exceptions) and every decoded plan
value (lists of dicts with or without required fields, and even
non-list values), it returns the join of the accumulated log; whenever
an exception was caught the final log line is exactly the
`An error occurred` line carrying its message, and when nothing was
caught no error line appears at all. -/
theorem C10_executor_total (env : BrowserEnv) (plan : Json) :
    execute_playwright_plan env plan =
      String.intercalate "\n" ((runExec env plan).log.map renderLog) ∧
    (∀ m, (runExec env plan).caught = some m →
      (runExec env plan).log.getLast? = some (LogLine.errorOccurred m)) ∧
    ((runExec env plan).caught = none →
      ∀ m, LogLine.errorOccurred m ∉ (runExec env plan).log) := by
  refine ⟨rfl, ?_, ?_⟩ <;>
  · cases h0 : env 0 with
    | raise m0 => simp [runExec, h0]
    | ok a =>
      cases h1 : env 1 with
      | raise m1 => simp [runExec, h0, h1]
      | ok b =>
        cases h2 : env 2 with
        | raise m2 => simp [runExec, h0, h1, h2]
        | ok c =>
          cases hie : iterElems plan with
          | error m' => simp [runExec, h0, h1, h2, hie]
          | ok steps =>
            have hlg := all_stepLine_no_error _ (runSteps_log_all env steps 0 3)
            cases hf : (runStepsFrom env steps 0 3).failure with
            | some im =>
              obtain ⟨fi, fm⟩ := im
              simp [runExec, h0, h1, h2, hie, hf, List.getLast?_concat]
            | none =>
              cases hp : env (runStepsFrom env steps 0 3).counter with
              | ok r =>
                simp only [runExec, h0, h1, h2, hie, hf, hp]
                first
                | (intro m hm; simp at hm)
                | (intro _ m hm
                   rcases List.mem_append.mp hm with h | h
                   · exact hlg m h
                   · simp at h)
              | raise m' =>
                simp only [runExec, h0, h1, h2, hie, hf, hp]
                first
                | (intro m hm
                   have hassoc : (runStepsFrom env steps 0 3).log ++
                       [LogLine.pausedInfo, LogLine.closeInfo, LogLine.errorOccurred m'] =
                       ((runStepsFrom env steps 0 3).log ++
                         [LogLine.pausedInfo, LogLine.closeInfo]) ++
                         [LogLine.errorOccurred m'] := by simp
                   rw [hassoc, List.getLast?_concat]
                   injection hm with hm'
                   rw [hm'])
                | (intro h; simp at h)

/-- C10 witness: a non-list plan value still yields a joined log whose
last line is the caught `TypeError` text. -/
theorem C10_witness :
    (runExec allOkEnv (Json.num "42")).caught = some "'int' object is not iterable" ∧
    (runExec allOkEnv (Json.num "42")).log.getLast? =
      some (LogLine.errorOccurred "'int' object is not iterable") :=
  ⟨rfl, (C10_executor_total allOkEnv (Json.num "42")).2.1 _ rfl⟩

/-- Orchestrator environment whose configuration lacks the API key. -/
def noKeyEnv : OrchEnv := ⟨none, fun _ => Except.ok "[]", allOkEnv⟩

/-- Orchestrator environment whose translator returns the non-array JSON
text of an empty object. -/
def objPlanEnv : OrchEnv := ⟨some "key", fun _ => Except.ok "\x7b\x7d", allOkEnv⟩

/-- C2 counterexample: with no API key configured, the `ValueError`
raised by `configure_nlp_module` is not caught anywhere in
`brain_orchestrator` (the call happens before the `try` block), so the
orchestrator propagates an unhandled exception to the caller instead of
streaming a diagnostic. -/
theorem C2_counterexample :
    (brain_orchestrator noKeyEnv "go to example.com").1 =
      Except.error "Gemini API key not found. Please set it in the .env file." := rfl

/-- C2 (amended): errors raised before the plan text is produced
(configuration, translator call) propagate to the caller; once the
translator returns text, the orchestrator always streams the progress
message plus exactly one final message and never propagates an
exception from decoding or execution. -/
theorem C2_post_translation_errors_streamed (o : OrchEnv) (p key txt : String)
    (hk : o.apiKey = some key)
    (hg : o.generate (structured_prompt p) = Except.ok txt) :
    ∃ final, (brain_orchestrator o p).1 =
      Except.ok ["Generated Plan:\n" ++ strip_wrapping txt ++ "\n\nExecuting...", final] := by
  simp only [brain_orchestrator, configure_nlp_module, generate_automation_plan, hk, hg]
  cases hj : json_loads (strip_wrapping txt) with
  | none => exact ⟨_, rfl⟩
  | some plan => exact ⟨_, rfl⟩

/-- C2 witness: with a key configured and the translator returning
`not-json`, the orchestrator streams two messages and raises nothing. -/
theorem C2_witness :
    ∃ final, (brain_orchestrator ⟨some "key", fun _ => Except.ok "not-json", allOkEnv⟩ "p").1 =
      Except.ok ["Generated Plan:\n" ++ strip_wrapping "not-json" ++ "\n\nExecuting...", final] :=
  C2_post_translation_errors_streamed _ "p" "key" "not-json" rfl rfl

/-- C3 counterexample: the text of an empty JSON object is valid JSON
but not an array; `json.loads` succeeds (no `JSONDecodeError`), the
executor is invoked with the dict, and a session is acquired (the
launch call appears among the issued browser calls), contradicting the
claim for valid-JSON non-array inputs. -/
theorem C3_counterexample :
    json_loads "\x7b\x7d" = some (Json.obj []) ∧
    (brain_orchestrator objPlanEnv "p").2 =
      [BCall.start, BCall.launch, BCall.newPage, BCall.pause, BCall.close, BCall.stop] ∧
    (brain_orchestrator objPlanEnv "p").1 =
      Except.ok ["Generated Plan:\n\x7b\x7d\n\nExecuting...",
        "\n✅ Automation finished. The browser is now paused.\nClose the browser window manually to run a new command."] :=
  ⟨rfl, rfl, rfl⟩

/-- C3 (amended): when the cleaned translator text is not valid JSON at
all, decoding raises `JSONDecodeError`, the orchestrator streams the
raw cleaned text diagnostic as the final message, the executor is never
invoked and no browser call is issued; valid JSON of non-array type,
however, is passed through to the executor (see the counterexample). -/
theorem C3_invalid_json_short_circuits (o : OrchEnv) (p key txt : String)
    (hk : o.apiKey = some key)
    (hg : o.generate (structured_prompt p) = Except.ok txt)
    (hj : json_loads (strip_wrapping txt) = none) :
    brain_orchestrator o p =
      (Except.ok ["Generated Plan:\n" ++ strip_wrapping txt ++ "\n\nExecuting...",
        "Error: Could not decode the plan from the LLM. Raw response:\n" ++ strip_wrapping txt],
       []) := by
  simp only [brain_orchestrator, configure_nlp_module, generate_automation_plan, hk, hg, hj]

/-- C3 witness: `not-json` fails decoding; the orchestrator yields the
diagnostic and issues no browser call. -/
theorem C3_witness :
    json_loads (strip_wrapping "not-json") = none ∧
    brain_orchestrator ⟨some "key", fun _ => Except.ok "not-json", allOkEnv⟩ "p" =
      (Except.ok ["Generated Plan:\n" ++ strip_wrapping "not-json" ++ "\n\nExecuting...",
        "Error: Could not decode the plan from the LLM. Raw response:\n" ++
          strip_wrapping "not-json"], []) :=
  ⟨rfl, C3_invalid_json_short_circuits _ "p" "key" "not-json" rfl rfl rfl⟩

/-- A continuation before which a numeral may safely stop: empty input or
a character that cannot extend a numeral. -/
def sepOk : Chars → Bool
  | [] => true
  | c :: _ => !(isNumCh c)

theorem jsize_pos (v : Json) : 1 ≤ jsize v := by
  cases v <;> simp [jsize]

theorem skipWs_cons (c : Char) (l : Chars) (h : isJsonWs c = false) :
    skipWs (c :: l) = c :: l := by
  simp [skipWs, h]

theorem ne_of_digit_of_not_digit (c d : Char) (h : c.isDigit = true)
    (hd : d.isDigit = false) : c ≠ d := by
  intro hcd
  rw [hcd] at h
  rw [h] at hd
  cases hd

theorem digit_head_facts (c : Char) (h : c.isDigit = true) :
    isJsonWs c = false ∧ c ≠ ']' ∧ c ≠ 'n' ∧ c ≠ 't' ∧ c ≠ 'f' ∧ c ≠ '"' ∧
      c ≠ '[' ∧ c ≠ '\x7b' ∧ isNumStart c = true ∧ isNumCh c = true := by
  have hne : ∀ d : Char, d.isDigit = false → c ≠ d :=
    fun d hd => ne_of_digit_of_not_digit c d h hd
  have w1 : (c == ' ') = false := beq_eq_false_iff_ne.mpr (hne ' ' (by decide))
  have w2 : (c == '\t') = false := beq_eq_false_iff_ne.mpr (hne '\t' (by decide))
  have w3 : (c == '\n') = false := beq_eq_false_iff_ne.mpr (hne '\n' (by decide))
  have w4 : (c == '\r') = false := beq_eq_false_iff_ne.mpr (hne '\r' (by decide))
  refine ⟨by simp [isJsonWs, w1, w2, w3, w4], hne ']' (by decide), hne 'n' (by decide),
    hne 't' (by decide), hne 'f' (by decide), hne '"' (by decide), hne '[' (by decide),
    hne '\x7b' (by decide), by simp [isNumStart, h], by simp [isNumCh, h]⟩

theorem plainCh_facts (c : Char) (h : plainCh c = true) :
    c ≠ '"' ∧ c ≠ '\\' := by
  constructor <;> intro hcd <;> rw [hcd] at h <;> simp [plainCh] at h

theorem parseStr_plain : ∀ (l rest : Chars), l.all plainCh = true →
    parseStrChars (l ++ '"' :: rest) = some (l, rest) := by
  intro l
  induction l with
  | nil => intro rest _; rw [parseStrChars.eq_def]; simp
  | cons c l' ih =>
    intro rest hall
    simp only [List.all_cons, Bool.and_eq_true] at hall
    obtain ⟨hq, hb⟩ := plainCh_facts c hall.1
    rw [List.cons_append, parseStrChars.eq_def]
    simp [hq, hb, ih rest hall.2]

theorem takeWhile_append_of_all (p : Char → Bool) :
    ∀ (l r : Chars), l.all p = true → (l ++ r).takeWhile p = l ++ r.takeWhile p := by
  intro l
  induction l with
  | nil => intro r _; simp
  | cons c l' ih =>
    intro r hall
    simp only [List.all_cons, Bool.and_eq_true] at hall
    simp [List.takeWhile_cons, hall.1, ih r hall.2]

theorem parseNum_digits (c : Char) (t rest : Chars)
    (hc : c.isDigit = true) (ht : t.all Char.isDigit = true) (hrest : sepOk rest = true) :
    parseNum ((c :: t) ++ rest) = some (Json.num ⟨c :: t⟩, rest) := by
  have hall : (c :: t).all isNumCh = true := by
    rw [List.all_eq_true]
    intro x hx
    rcases List.mem_cons.mp hx with rfl | hx'
    · exact (digit_head_facts x hc).2.2.2.2.2.2.2.2.2
    · rw [List.all_eq_true] at ht
      simp [isNumCh, ht x hx']
  have hrw : rest.takeWhile isNumCh = [] := by
    cases rest with
    | nil => rfl
    | cons d r' =>
      simp only [sepOk, Bool.not_eq_true'] at hrest
      simp [List.takeWhile_cons, hrest]
  simp only [parseNum, takeWhile_append_of_all isNumCh (c :: t) rest hall, hrw,
    List.append_nil]
  simp [List.drop_left]

theorem renderChars_head (v : Json) (hwf : wfJson v = true) :
    ∃ c t, renderChars v = c :: t ∧ isJsonWs c = false ∧ c ≠ ']' := by
  cases v with
  | null => exact ⟨'n', _, rfl, by decide, by decide⟩
  | bool b => cases b
              · exact ⟨'f', _, rfl, by decide, by decide⟩
              · exact ⟨'t', _, rfl, by decide, by decide⟩
  | num s =>
    simp only [wfJson, Bool.and_eq_true, Bool.not_eq_true'] at hwf
    obtain ⟨hne, hdig⟩ := hwf
    cases hd : s.data with
    | nil => rw [hd] at hne; simp [List.isEmpty] at hne
    | cons c t =>
      rw [hd] at hdig
      simp only [List.all_cons, Bool.and_eq_true] at hdig
      have hf := digit_head_facts c hdig.1
      exact ⟨c, t, by simp [renderChars, hd], hf.1, hf.2.1⟩
  | str s => exact ⟨'"', _, rfl, by decide, by decide⟩
  | arr xs => exact ⟨'[', _, rfl, by decide, by decide⟩
  | obj fs => exact ⟨'\x7b', _, rfl, by decide, by decide⟩

theorem renderItemsChars_cons_ex (x : Json) (xs : List Json) :
    ∃ u, renderItemsChars (x :: xs) = renderChars x ++ u := by
  cases xs with
  | nil => exact ⟨[], by simp [renderItemsChars]⟩
  | cons y ys => exact ⟨',' :: renderItemsChars (y :: ys), rfl⟩

theorem renderMemsChars_cons_ex (k : String) (v : Json) (fs : List (String × Json)) :
    ∃ u, renderMemsChars ((k, v) :: fs) = '"' :: u := by
  cases fs with
  | nil => exact ⟨k.data ++ '"' :: ':' :: renderChars v, rfl⟩
  | cons m r =>
    exact ⟨(k.data ++ '"' :: ':' :: renderChars v) ++ ',' :: renderMemsChars (m :: r),
      by simp [renderMemsChars]⟩

theorem parseVal_succ (f : Nat) :
    parseVal (f + 1) = parseValStep (parseItems f) (parseMems f) := rfl

theorem parseItems_succ (f : Nat) :
    parseItems (f + 1) = parseItemsStep (parseVal f) (parseItems f) := rfl

theorem parseMems_succ (f : Nat) :
    parseMems (f + 1) = parseMemsStep (parseVal f) (parseMems f) := rfl

/-- Roundtrip of the parser against the canonical serializer: at any
sufficient fuel level, a serialized well-formed value (or nonempty item
or member list) parses back to itself, leaving the continuation
untouched. -/
theorem parse_render_round : ∀ f : Nat,
    (∀ (v : Json) (rest : Chars), wfJson v = true → jsize v ≤ f → sepOk rest = true →
      parseVal f (renderChars v ++ rest) = some (v, rest)) ∧
    (∀ (xs : List Json) (rest : Chars), xs ≠ [] → wfItems xs = true → jsizeItems xs ≤ f →
      parseItems f (renderItemsChars xs ++ ']' :: rest) = some (xs, rest)) ∧
    (∀ (ms : List (String × Json)) (rest : Chars), ms ≠ [] → wfMems ms = true →
      jsizeMems ms ≤ f →
      parseMems f (renderMemsChars ms ++ '\x7d' :: rest) = some (ms, rest)) := by
  intro f
  induction f with
  | zero =>
    refine ⟨fun v rest _ hsz _ => ?_, fun xs rest hne hwf hsz => ?_,
      fun ms rest hne hwf hsz => ?_⟩
    · have := jsize_pos v; omega
    · cases xs with
      | nil => exact absurd rfl hne
      | cons x r => have := jsize_pos x; simp [jsizeItems] at hsz
    · cases ms with
      | nil => exact absurd rfl hne
      | cons m r =>
        obtain ⟨k, v⟩ := m
        have := jsize_pos v; simp [jsizeMems] at hsz
  | succ f ih =>
    obtain ⟨ihv, ihi, ihm⟩ := ih
    refine ⟨fun v rest hwf hsz hsep => ?_, fun xs rest hne hwf hsz => ?_,
      fun ms rest hne hwf hsz => ?_⟩
    · -- values
      cases v with
      | null => rfl
      | bool b => cases b <;> rfl
      | str s =>
        obtain ⟨l⟩ := s
        rw [parseVal_succ]
        have harr : renderChars (Json.str ⟨l⟩) ++ rest = '"' :: (l ++ '"' :: rest) := by
          simp [renderChars]
        rw [harr]
        unfold parseValStep
        rw [skipWs_cons _ _ (by decide)]
        have hall : l.all plainCh = true := by simpa [wfJson] using hwf
        simp [parseStr_plain l rest hall]
      | num s =>
        obtain ⟨l⟩ := s
        simp only [wfJson, Bool.and_eq_true, Bool.not_eq_true'] at hwf
        obtain ⟨hne, hdig⟩ := hwf
        cases l with
        | nil => simp at hne
        | cons c t =>
          simp only [List.all_cons, Bool.and_eq_true] at hdig
          obtain ⟨hc, ht⟩ := hdig
          have hf := digit_head_facts c hc
          rw [parseVal_succ]
          have harr : renderChars (Json.num ⟨c :: t⟩) ++ rest = c :: (t ++ rest) := by
            simp [renderChars]
          rw [harr]
          unfold parseValStep
          rw [skipWs_cons _ _ hf.1]
          simp only [hf.2.2.1, hf.2.2.2.1, hf.2.2.2.2.1, hf.2.2.2.2.2.1,
            hf.2.2.2.2.2.2.1, hf.2.2.2.2.2.2.2.1, hf.2.2.2.2.2.2.2.2.1, if_false,
            if_neg, if_true, ite_false, ite_true]
          rw [← List.cons_append, parseNum_digits c t rest hc ht hsep]
      | arr xs =>
        cases xs with
        | nil => rfl
        | cons x xs' =>
          rw [parseVal_succ]
          have hwx : wfJson x = true := by
            have : wfItems (x :: xs') = true := by simpa [wfJson] using hwf
            simp only [wfItems, Bool.and_eq_true] at this
            exact this.1
          have hpit : parseItems f (renderItemsChars (x :: xs') ++ ']' :: rest) =
              some (x :: xs', rest) := by
            apply ihi (x :: xs') rest (by simp) (by simpa [wfJson] using hwf)
            simp only [jsize] at hsz
            omega
          obtain ⟨u, hu⟩ := renderItemsChars_cons_ex x xs'
          obtain ⟨c, t, hct, hws, hbr⟩ := renderChars_head x hwx
          have hinner : renderItemsChars (x :: xs') ++ ']' :: rest =
              c :: (t ++ (u ++ ']' :: rest)) := by
            rw [hu, hct]; simp
          have houter : renderChars (Json.arr (x :: xs')) ++ rest =
              '[' :: (renderItemsChars (x :: xs') ++ ']' :: rest) := by simp [renderChars]
          rw [hinner] at hpit
          rw [houter]
          unfold parseValStep
          rw [skipWs_cons _ _ (by decide)]
          simp [hinner, skipWs_cons _ _ hws, hbr, hpit]
      | obj fs =>
        cases fs with
        | nil => rfl
        | cons m fs' =>
          obtain ⟨k, v⟩ := m
          rw [parseVal_succ]
          have hpms : parseMems f (renderMemsChars ((k, v) :: fs') ++ '\x7d' :: rest) =
              some ((k, v) :: fs', rest) := by
            apply ihm ((k, v) :: fs') rest (by simp) (by simpa [wfJson] using hwf)
            simp only [jsize] at hsz
            omega
          obtain ⟨u, hu⟩ := renderMemsChars_cons_ex k v fs'
          have hinner : renderMemsChars ((k, v) :: fs') ++ '\x7d' :: rest =
              '"' :: (u ++ '\x7d' :: rest) := by
            rw [hu]; simp
          have houter : renderChars (Json.obj ((k, v) :: fs')) ++ rest =
              '\x7b' :: (renderMemsChars ((k, v) :: fs') ++ '\x7d' :: rest) := by
            simp [renderChars]
          rw [hinner] at hpms
          rw [houter]
          unfold parseValStep
          rw [skipWs_cons _ _ (by decide)]
          simp [hinner, hpms,
            show ∀ l : Chars, skipWs ('"' :: l) = '"' :: l from
              fun l => skipWs_cons _ _ (by decide)]
    · -- item lists
      cases xs with
      | nil => exact absurd rfl hne
      | cons x xs' =>
        simp only [wfItems, Bool.and_eq_true] at hwf
        rw [parseItems_succ]
        cases xs' with
        | nil =>
          have hv := ihv x (']' :: rest) hwf.1
            (by simp only [jsizeItems] at hsz; omega) rfl
          have harr : renderItemsChars [x] ++ ']' :: rest = renderChars x ++ ']' :: rest := by
            simp [renderItemsChars]
          rw [harr]
          unfold parseItemsStep
          rw [hv]
          rfl
        | cons y ys =>
          have hexp : jsizeItems (x :: y :: ys) = 1 + jsize x + jsizeItems (y :: ys) := rfl
          rw [hexp] at hsz
          have hp1 : 1 ≤ jsizeItems (y :: ys) := by simp [jsizeItems]; omega
          have hp2 := jsize_pos x
          have hszx : jsize x ≤ f := by omega
          have hszr : jsizeItems (y :: ys) ≤ f := by omega
          have hv := ihv x (',' :: (renderItemsChars (y :: ys) ++ ']' :: rest)) hwf.1
            hszx rfl
          have hrec := ihi (y :: ys) rest (by simp) hwf.2 hszr
          have harr : renderItemsChars (x :: y :: ys) ++ ']' :: rest =
              renderChars x ++ ',' :: (renderItemsChars (y :: ys) ++ ']' :: rest) := by
            simp [renderItemsChars]
          rw [harr]
          unfold parseItemsStep
          rw [hv]
          simp [hrec,
            show ∀ l : Chars, skipWs (',' :: l) = ',' :: l from
              fun l => skipWs_cons _ _ (by decide)]
    · -- member lists
      cases ms with
      | nil => exact absurd rfl hne
      | cons m ms' =>
        obtain ⟨k, v⟩ := m
        obtain ⟨kl⟩ := k
        simp only [wfMems, Bool.and_eq_true] at hwf
        obtain ⟨⟨hkw, hvw⟩, hmsw⟩ := hwf
        rw [parseMems_succ]
        cases ms' with
        | nil =>
          have hv := ihv v ('\x7d' :: rest) hvw
            (by simp only [jsizeMems] at hsz; omega) rfl
          have harr : renderMemsChars [(⟨kl⟩, v)] ++ '\x7d' :: rest =
              '"' :: (kl ++ '"' :: (':' :: (renderChars v ++ '\x7d' :: rest))) := by
            simp [renderMemsChars]
          rw [harr]
          unfold parseMemsStep
          rw [skipWs_cons _ _ (by decide)]
          simp [parseStr_plain kl _ hkw, hv,
            show ∀ l : Chars, skipWs (':' :: l) = ':' :: l from
              fun l => skipWs_cons _ _ (by decide),
            show ∀ l : Chars, skipWs ('\x7d' :: l) = '\x7d' :: l from
              fun l => skipWs_cons _ _ (by decide)]
        | cons m2 ms2 =>
          have hexp : jsizeMems ((⟨kl⟩, v) :: m2 :: ms2) =
              1 + jsize v + jsizeMems (m2 :: ms2) := rfl
          rw [hexp] at hsz
          have hp1 : 1 ≤ jsizeMems (m2 :: ms2) := by
            obtain ⟨k2, v2⟩ := m2
            simp [jsizeMems]
            omega
          have hp2 := jsize_pos v
          have hszv : jsize v ≤ f := by omega
          have hszr : jsizeMems (m2 :: ms2) ≤ f := by omega
          have hv := ihv v (',' :: (renderMemsChars (m2 :: ms2) ++ '\x7d' :: rest)) hvw
            hszv rfl
          have hrec := ihm (m2 :: ms2) rest (by simp) hmsw hszr
          have harr : renderMemsChars ((⟨kl⟩, v) :: m2 :: ms2) ++ '\x7d' :: rest =
              '"' :: (kl ++ '"' :: (':' :: (renderChars v ++
                ',' :: (renderMemsChars (m2 :: ms2) ++ '\x7d' :: rest)))) := by
            simp [renderMemsChars]
          rw [harr]
          unfold parseMemsStep
          rw [skipWs_cons _ _ (by decide)]
          simp [parseStr_plain kl _ hkw, hv, hrec,
            show ∀ l : Chars, skipWs (':' :: l) = ':' :: l from
              fun l => skipWs_cons _ _ (by decide),
            show ∀ l : Chars, skipWs (',' :: l) = ',' :: l from
              fun l => skipWs_cons _ _ (by decide)]

mutual

theorem jsize_le_renderLen : ∀ (v : Json), wfJson v = true →
    jsize v ≤ (renderChars v).length
  | Json.null, _ => by simp [jsize, renderChars]
  | Json.bool b, _ => by cases b <;> simp [jsize, renderChars]
  | Json.num s, h => by
    simp only [wfJson, Bool.and_eq_true, Bool.not_eq_true'] at h
    cases hd : s.data with
    | nil => rw [hd] at h; simp [List.isEmpty] at h
    | cons c t => simp [jsize, renderChars, hd]
  | Json.str s, _ => by simp [jsize, renderChars]
  | Json.arr xs, h => by
    have hb := jsizeItems_le_renderLen xs (by simpa [wfJson] using h)
    simp only [jsize, renderChars, List.length_cons, List.length_append]
    omega
  | Json.obj fs, h => by
    have hb := jsizeMems_le_renderLen fs (by simpa [wfJson] using h)
    simp only [jsize, renderChars, List.length_cons, List.length_append]
    omega

theorem jsizeItems_le_renderLen : ∀ (xs : List Json), wfItems xs = true →
    jsizeItems xs ≤ (renderItemsChars xs).length + 1
  | [], _ => by simp [jsizeItems]
  | [x], h => by
    have h1 := jsize_le_renderLen x (by simp only [wfItems, Bool.and_eq_true] at h; exact h.1)
    simp only [jsizeItems, renderItemsChars]
    omega
  | x :: y :: ys, h => by
    simp only [wfItems, Bool.and_eq_true] at h
    have h1 := jsize_le_renderLen x h.1
    have h2 := jsizeItems_le_renderLen (y :: ys) (by simp [wfItems, h.2.1, h.2.2])
    simp only [jsizeItems, renderItemsChars, List.length_append, List.length_cons] at h2 ⊢
    omega

theorem jsizeMems_le_renderLen : ∀ (ms : List (String × Json)), wfMems ms = true →
    jsizeMems ms ≤ (renderMemsChars ms).length + 1
  | [], _ => by simp [jsizeMems]
  | [(k, v)], h => by
    have h1 := jsize_le_renderLen v
      (by simp only [wfMems, Bool.and_eq_true] at h; exact h.1.2)
    simp only [jsizeMems, renderMemsChars, List.length_cons, List.length_append]
    omega
  | (k, v) :: (k2, v2) :: ms2, h => by
    simp only [wfMems, Bool.and_eq_true] at h
    have h1 := jsize_le_renderLen v h.1.2
    have h2 := jsizeMems_le_renderLen ((k2, v2) :: ms2)
      (by simp [wfMems, h.2.1.1, h.2.1.2, h.2.2])
    simp only [jsizeMems, renderMemsChars, List.length_append, List.length_cons] at h2 ⊢
    omega

end


theorem plainCh_no_backtick (c : Char) (h : plainCh c = true) : (!(c == '`')) = true := by
  cases hbe : c == '`' with
  | false => simp
  | true => simp [plainCh, hbe] at h

theorem digit_no_backtick (c : Char) (h : c.isDigit = true) : (!(c == '`')) = true := by
  have := ne_of_digit_of_not_digit c '`' h (by decide)
  simp [beq_eq_false_iff_ne.mpr this]

mutual

theorem renderChars_clear : ∀ (v : Json), wfJson v = true →
    (renderChars v).all (fun c => !(c == '`')) = true
  | Json.null, _ => by decide
  | Json.bool b, _ => by cases b <;> decide
  | Json.num s, h => by
    simp only [wfJson, Bool.and_eq_true] at h
    have hd : (s.data.all fun c => !(c == '`')) = true := by
      rw [List.all_eq_true]
      intro c hc
      exact digit_no_backtick c (List.all_eq_true.mp h.2 c hc)
    simp [renderChars, hd]
  | Json.str s, h => by
    have hs : (s.data.all fun c => !(c == '`')) = true := by
      rw [List.all_eq_true]
      intro c hc
      exact plainCh_no_backtick c (List.all_eq_true.mp (by simpa [wfJson] using h) c hc)
    simp [renderChars, hs]
  | Json.arr xs, h => by
    have hi := renderItems_clear xs (by simpa [wfJson] using h)
    simp [renderChars, hi]
  | Json.obj fs, h => by
    have hm := renderMems_clear fs (by simpa [wfJson] using h)
    simp [renderChars, hm]

theorem renderItems_clear : ∀ (xs : List Json), wfItems xs = true →
    (renderItemsChars xs).all (fun c => !(c == '`')) = true
  | [], _ => by decide
  | [x], h => by
    have hx := renderChars_clear x (by simp only [wfItems, Bool.and_eq_true] at h; exact h.1)
    simp [renderItemsChars, hx]
  | x :: y :: ys, h => by
    simp only [wfItems, Bool.and_eq_true] at h
    have hx := renderChars_clear x h.1
    have hr := renderItems_clear (y :: ys) (by simp [wfItems, h.2.1, h.2.2])
    simp [renderItemsChars, hx, hr]

theorem renderMems_clear : ∀ (ms : List (String × Json)), wfMems ms = true →
    (renderMemsChars ms).all (fun c => !(c == '`')) = true
  | [], _ => by decide
  | [(k, v)], h => by
    simp only [wfMems, Bool.and_eq_true] at h
    have hk : (k.data.all fun c => !(c == '`')) = true := by
      rw [List.all_eq_true]
      intro c hc
      exact plainCh_no_backtick c (List.all_eq_true.mp h.1.1 c hc)
    have hv := renderChars_clear v h.1.2
    simp [renderMemsChars, hk, hv]
  | (k, v) :: (k2, v2) :: ms2, h => by
    simp only [wfMems, Bool.and_eq_true] at h
    have hk : (k.data.all fun c => !(c == '`')) = true := by
      rw [List.all_eq_true]
      intro c hc
      exact plainCh_no_backtick c (List.all_eq_true.mp h.1.1 c hc)
    have hv := renderChars_clear v h.1.2
    have hr := renderMems_clear ((k2, v2) :: ms2)
      (by simp [wfMems, h.2.1.1, h.2.1.2, h.2.2])
    simp [renderMemsChars, hk, hv, hr]

end

theorem renderChars_no_backtick (v : Json) (h : wfJson v = true) :
    '`' ∉ renderChars v := by
  intro hm
  have := List.all_eq_true.mp (renderChars_clear v h) '`' hm
  simp at this

theorem matchesAt_append_self : ∀ (p t : Chars), matchesAt p (p ++ t) = true := by
  intro p
  induction p with
  | nil => intro t; rfl
  | cons c p' ih => intro t; simp [matchesAt, ih]

theorem pyReplaceAux_fuel (p0 : Char) (ps rep : Chars) :
    ∀ (f1 : Nat) (l : Chars) (f2 : Nat), l.length ≤ f1 → l.length ≤ f2 →
      pyReplaceAux p0 ps rep f1 l = pyReplaceAux p0 ps rep f2 l := by
  intro f1
  induction f1 with
  | zero =>
    intro l f2 h1 _
    have hl : l = [] := List.length_eq_zero.mp (Nat.le_zero.mp h1)
    subst hl
    cases f2 <;> simp [pyReplaceAux]
  | succ f1 ih =>
    intro l f2 h1 h2
    cases l with
    | nil => cases f2 <;> simp [pyReplaceAux]
    | cons c cs =>
      cases f2 with
      | zero =>
        simp only [List.length_cons] at h2
        omega
      | succ f2' =>
        simp only [List.length_cons] at h1 h2
        simp only [pyReplaceAux]
        by_cases hm : matchesAt (p0 :: ps) (c :: cs) = true
        · simp only [hm, if_true]
          rw [ih (cs.drop ps.length) f2' (by simp [List.length_drop]; omega)
            (by simp [List.length_drop]; omega)]
        · simp only [Bool.not_eq_true] at hm
          simp only [hm, Bool.false_eq_true, if_false]
          rw [ih cs f2' (by omega) (by omega)]

theorem pyReplace_no_head (p0 : Char) (ps rep : Chars) :
    ∀ (a b : Chars), (∀ c ∈ a, c ≠ p0) →
      pyReplaceChars (p0 :: ps) rep (a ++ b) = a ++ pyReplaceChars (p0 :: ps) rep b := by
  intro a
  induction a with
  | nil => intro b _; simp
  | cons c a' ih =>
    intro b ha
    have hc : p0 ≠ c := fun hr => (ha c (by simp)) hr.symm
    have hm : matchesAt (p0 :: ps) (c :: (a' ++ b)) = false := by
      simp [matchesAt, beq_eq_false_iff_ne.mpr hc]
    show pyReplaceChars (p0 :: ps) rep ((c :: a') ++ b) =
      (c :: a') ++ pyReplaceChars (p0 :: ps) rep b
    simp only [pyReplaceChars, List.cons_append, List.length_cons]
    simp only [pyReplaceAux, hm, Bool.false_eq_true, if_false]
    have hinner : pyReplaceAux p0 ps rep (a' ++ b).length (a' ++ b) =
        pyReplaceChars (p0 :: ps) rep (a' ++ b) := rfl
    rw [hinner, ih b (fun d hd => ha d (List.mem_cons_of_mem c hd))]
    rfl

theorem pyReplace_head (p0 : Char) (ps rep t : Chars) :
    pyReplaceChars (p0 :: ps) rep ((p0 :: ps) ++ t) =
      rep ++ pyReplaceChars (p0 :: ps) rep t := by
  have hm : matchesAt (p0 :: ps) (p0 :: (ps ++ t)) = true := by
    have := matchesAt_append_self (p0 :: ps) t
    simpa using this
  simp only [pyReplaceChars, List.cons_append, List.length_cons]
  simp only [pyReplaceAux, hm, if_true]
  rw [List.drop_left]
  rw [pyReplaceAux_fuel p0 ps rep (ps ++ t).length t t.length
    (by simp) (by simp)]

theorem pyStrip_of_ends (c1 c2 : Char) (mid : Chars)
    (h1 : isPyWs c1 = false) (h2 : isPyWs c2 = false) :
    pyStripChars (c1 :: (mid ++ [c2])) = c1 :: (mid ++ [c2]) := by
  unfold pyStripChars
  rw [List.dropWhile_cons]
  simp only [h1, Bool.false_eq_true, if_false]
  have hrev : (c1 :: (mid ++ [c2])).reverse = c2 :: (mid.reverse ++ [c1]) := by simp
  rw [hrev, List.dropWhile_cons]
  simp only [h2, Bool.false_eq_true, if_false]
  simp

theorem parseVal_skip_ws (f : Nat) (c : Char) (X : Chars) (h : isJsonWs c = true) :
    parseVal (f + 1) (c :: X) = parseVal (f + 1) X := by
  rw [parseVal_succ]
  unfold parseValStep
  rw [show skipWs (c :: X) = skipWs X from by simp [skipWs, h]]

theorem strip_wrapping_fence (v : Json) (hwf : wfJson v = true) :
    strip_wrapping ("```json\n" ++ renderString v ++ "\n```") =
      ⟨'\n' :: (renderChars v ++ ['\n'])⟩ := by
  have hR := renderChars_no_backtick v hwf
  have hnb : ∀ c ∈ '\n' :: (renderChars v ++ ['\n']), c ≠ '`' := by
    intro c hc
    rcases List.mem_cons.mp hc with rfl | hc
    · decide
    · rcases List.mem_append.mp hc with hc | hc
      · exact fun hcc => hR (hcc ▸ hc)
      · simp at hc; subst hc; decide
  have hdata : ("```json\n" ++ renderString v ++ "\n```").data =
      "```json\n".data ++ (renderChars v ++ "\n```".data) := by
    simp [renderString, String.data_append]
  have h1 : pyStripChars ("```json\n".data ++ (renderChars v ++ "\n```".data)) =
      "```json\n".data ++ (renderChars v ++ "\n```".data) := by
    have hsh : "```json\n".data ++ (renderChars v ++ "\n```".data) =
        '`' :: ((('`' :: '`' :: 'j' :: 's' :: 'o' :: 'n' :: '\n' :: renderChars v) ++
          ['\n', '`', '`']) ++ ['`']) := by
      simp
    rw [hsh, pyStrip_of_ends _ _ _ (by decide) (by decide), ← hsh]
  have h2 : pyReplaceChars "```json".data []
      ("```json\n".data ++ (renderChars v ++ "\n```".data)) =
      ('\n' :: (renderChars v ++ ['\n'])) ++ ('`' :: '`' :: '`' :: []) := by
    have hsh : "```json\n".data ++ (renderChars v ++ "\n```".data) =
        ('`' :: ['`', '`', 'j', 's', 'o', 'n']) ++
          (('\n' :: (renderChars v ++ ['\n'])) ++ ('`' :: '`' :: '`' :: [])) := by
      simp
    rw [hsh, show ("```json".data : Chars) = '`' :: ['`', '`', 'j', 's', 'o', 'n'] from rfl]
    rw [pyReplace_head '`' ['`', '`', 'j', 's', 'o', 'n'] []]
    rw [pyReplace_no_head '`' ['`', '`', 'j', 's', 'o', 'n'] [] _ _ hnb]
    rw [show pyReplaceChars ('`' :: ['`', '`', 'j', 's', 'o', 'n']) []
      ('`' :: '`' :: '`' :: []) = '`' :: '`' :: '`' :: [] from rfl]
    simp
  have h3 : pyReplaceChars "```".data []
      (('\n' :: (renderChars v ++ ['\n'])) ++ ('`' :: '`' :: '`' :: [])) =
      '\n' :: (renderChars v ++ ['\n']) := by
    rw [show ("```".data : Chars) = '`' :: ['`', '`'] from rfl]
    rw [pyReplace_no_head '`' ['`', '`'] [] _ _ hnb]
    rw [show pyReplaceChars ('`' :: ['`', '`']) [] ('`' :: '`' :: '`' :: []) = [] from rfl]
    simp
  unfold strip_wrapping
  rw [hdata, h1, h2, h3]

/-- C7: for every well-formed JSON array of objects, both the code-fenced
wrapped serialization (after the generator's strip step) and the bare
serialization decode to exactly the array itself: the decoded action
sequence has the same length as the input array, its elements appear in
the same order, and every object's fields are retained as given. -/
theorem C7_decoder_preserves_arrays (xs : List Json)
    (_hobj : xs.all isObjJson = true) (hwf : wfJson (Json.arr xs) = true) :
    json_loads (strip_wrapping ("```json\n" ++ renderString (Json.arr xs) ++ "\n```")) =
      some (Json.arr xs) ∧
    json_loads (renderString (Json.arr xs)) = some (Json.arr xs) := by
  have hsz := jsize_le_renderLen (Json.arr xs) hwf
  constructor
  · rw [strip_wrapping_fence (Json.arr xs) hwf]
    unfold json_loads
    rw [show (⟨'\n' :: (renderChars (Json.arr xs) ++ ['\n'])⟩ : String).data =
      '\n' :: (renderChars (Json.arr xs) ++ ['\n']) from rfl]
    rw [show ('\n' :: (renderChars (Json.arr xs) ++ ['\n'])).length =
      (renderChars (Json.arr xs) ++ ['\n']).length + 1 from rfl]
    rw [parseVal_skip_ws _ '\n' _ (by decide)]
    rw [(parse_render_round ((renderChars (Json.arr xs) ++ ['\n']).length + 1 + 1)).1
      (Json.arr xs) ['\n'] hwf (by simp [List.length_append]; omega) rfl]
    rfl
  · unfold json_loads
    rw [show (renderString (Json.arr xs)).data = renderChars (Json.arr xs) from rfl]
    have hp := (parse_render_round ((renderChars (Json.arr xs)).length + 1)).1
      (Json.arr xs) [] hwf (by omega) rfl
    rw [List.append_nil] at hp
    rw [hp]
    rfl

/-- C7 witness: the singleton end-action plan decodes from its fenced
serialization to exactly itself. -/
theorem C7_witness :
    ([Json.obj [("action", Json.str "end"), ("message", Json.str "done")]].all
      isObjJson = true) ∧
    json_loads (strip_wrapping ("```json\n" ++
        renderString (Json.arr
          [Json.obj [("action", Json.str "end"), ("message", Json.str "done")]]) ++
        "\n```")) =
      some (Json.arr [Json.obj [("action", Json.str "end"), ("message", Json.str "done")]]) :=
  ⟨rfl, (C7_decoder_preserves_arrays
    [Json.obj [("action", Json.str "end"), ("message", Json.str "done")]] rfl rfl).1⟩
